import Mathlib

/-!
Verification development for the proceedings detection, segmentation and
fuzzy-match trimming engine of `src/pipelines/00_trim_proceedings_text.py`.

Text is embedded as `List Char`.  The program only manipulates text through
Python's `str.split`, `str.strip`, `str.lower`, `str.splitlines`,
`unicodedata.normalize("NFKD", ·)` followed by an ASCII filter, and a few
regular expressions; each of those operations is modelled below.  Two
documented approximations are made, both irrelevant to the claims (which
quantify over inputs on which the model and CPython agree exactly, and all
of whose concrete witnesses are plain ASCII):
* the NFKD-then-encode-ascii step is modelled as dropping non-ASCII
  characters (NFKD can first decompose an accented character into an ASCII
  base plus a combining mark; on ASCII input the two agree);
* regex character classes (`\s`, `\d`, `[A-Z]`, `\w`, `\b`) are read as
  their ASCII meaning.
Scores are Python floats in the source; they are modelled as exact
rationals (`ℚ`), with the literal thresholds 0.70 / 0.55 / 0.25 / 0.60 /
0.75 / 0.95 / 0.65 / 0.35 carried over as the corresponding rationals.
-/

namespace Trim

/-- Python whitespace as used by `str.split` / `str.strip` (ASCII part):
space (32), tab (9), newline (10), carriage return (13), vertical tab (11),
form feed (12). -/
def isSpaceChar (c : Char) : Bool :=
  c.toNat = 32 || c.toNat = 9 || c.toNat = 10 || c.toNat = 13 || c.toNat = 11 || c.toNat = 12

/-- Helper for `words`: accumulates the current (reversed) word. -/
def wordsAux : List Char → List Char → List (List Char)
  | [], acc => if acc.isEmpty then [] else [acc.reverse]
  | c :: rest, acc =>
      if isSpaceChar c then
        if acc.isEmpty then wordsAux rest [] else acc.reverse :: wordsAux rest []
      else wordsAux rest (c :: acc)

/-- Python `s.split()`: split on runs of whitespace, dropping empty pieces. -/
def words (s : List Char) : List (List Char) :=
  wordsAux s []

/-- Python `sep.join(ws)` for a one-character separator. -/
def joinSep (sep : Char) : List (List Char) → List Char
  | [] => []
  | [w] => w
  | w :: x :: ws => w ++ sep :: joinSep sep (x :: ws)

/-- Python `" ".join(ws)`. -/
def joinSpace (ws : List (List Char)) : List Char :=
  joinSep ' ' ws

/-- Python `" ".join(s.split())`: collapse internal whitespace. -/
def collapseWS (s : List Char) : List Char :=
  joinSpace (words s)

/-- Python `s.strip()`: drop leading and trailing whitespace. -/
def stripWS (s : List Char) : List Char :=
  ((s.dropWhile isSpaceChar).reverse.dropWhile isSpaceChar).reverse

/-- ASCII lower-casing, as Python `str.lower` acts on ASCII letters
(code points 65–90 map to 97–122). -/
def lowerAscii (c : Char) : Char :=
  if 65 ≤ c.toNat ∧ c.toNat ≤ 90 then Char.ofNat (c.toNat + 32) else c

/-- The character class `[a-z0-9]` (code points 97–122 and 48–57) of the
normalizer's regex. -/
def isLowerAlphaNum (c : Char) : Bool :=
  (97 ≤ c.toNat && c.toNat ≤ 122) || (48 ≤ c.toNat && c.toNat ≤ 57)

/-- `unicodedata.normalize("NFKD", text).encode("ascii","ignore")`, modelled
as keeping the ASCII characters (exact on ASCII input, see the header). -/
def asciiFold (s : List Char) : List Char :=
  s.filter (fun c => c.toNat < 128)

/-- One character through `.lower()` and `re.sub(r"[^a-z0-9]+", " ", ·)`:
lower-case it, and replace it by a space unless it is `[a-z0-9]`.  Replacing
each offending character by one space and then re-splitting on whitespace
gives the same result as replacing each maximal run by one space. -/
def cleanChar (c : Char) : Char :=
  let c' := lowerAscii c
  if isLowerAlphaNum c' then c' else ' '

/-- `normalize_text` of the source: NFKD-fold to ASCII, lower-case, collapse
every run of non-alphanumerics to a single space, normalize whitespace. -/
def normalize_text (s : List Char) : List Char :=
  joinSpace (words ((asciiFold s).map cleanChar))

/-- `token_set(text, min_len)` of the source: the distinct words of the
normalized text having at least `min_len` characters. -/
def token_set (s : List Char) (min_len : Nat) : Finset (List Char) :=
  ((words (normalize_text s)).filter (fun w => min_len ≤ w.length)).toFinset

/-! ### Word/join lemmas -/

theorem wordsAux_words_spaceFree (s : List Char) :
    ∀ acc : List Char, (∀ c ∈ acc, isSpaceChar c = false) →
      ∀ w ∈ wordsAux s acc, w ≠ [] ∧ ∀ c ∈ w, isSpaceChar c = false := by
  induction s with
  | nil =>
      intro acc hacc w hw
      simp only [wordsAux] at hw
      split at hw
      · simp at hw
      · rename_i hne
        simp only [List.mem_singleton] at hw
        subst hw
        constructor
        · simp only [ne_eq, List.reverse_eq_nil_iff]
          intro h
          rw [h] at hne
          simp at hne
        · intro c hc
          exact hacc c (List.mem_reverse.mp hc)
  | cons c rest ih =>
      intro acc hacc w hw
      simp only [wordsAux] at hw
      by_cases hsp : isSpaceChar c
      · rw [if_pos hsp] at hw
        split at hw
        · exact ih [] (by simp) w hw
        · rename_i hne
          rcases List.mem_cons.mp hw with h | h
          · subst h
            constructor
            · simp only [ne_eq, List.reverse_eq_nil_iff]
              intro h
              rw [h] at hne
              simp at hne
            · intro d hd
              exact hacc d (List.mem_reverse.mp hd)
          · exact ih [] (by simp) w h
      · rw [if_neg hsp] at hw
        refine ih (c :: acc) ?_ w hw
        intro d hd
        rcases List.mem_cons.mp hd with h | h
        · subst h
          exact Bool.eq_false_iff.mpr hsp
        · exact hacc d h

/-- Every word produced by `words` is non-empty and whitespace-free. -/
theorem words_spaceFree (s : List Char) :
    ∀ w ∈ words s, w ≠ [] ∧ ∀ c ∈ w, isSpaceChar c = false :=
  wordsAux_words_spaceFree s [] (by simp)

theorem wordsAux_append_nonspace (w : List Char) (hw : ∀ c ∈ w, isSpaceChar c = false) :
    ∀ s acc, wordsAux (w ++ s) acc = wordsAux s (w.reverse ++ acc) := by
  induction w with
  | nil => intro s acc; simp
  | cons c cs ih =>
      intro s acc
      have hc : isSpaceChar c = false := hw c (by simp)
      simp only [List.cons_append, wordsAux, hc, Bool.false_eq_true, if_false]
      show wordsAux (cs ++ s) (c :: acc) = wordsAux s ((c :: cs).reverse ++ acc)
      rw [ih (fun d hd => hw d (by simp [hd])) s (c :: acc)]
      simp

/-- Splitting the space-joined words back recovers them, provided each word
is non-empty and whitespace-free. -/
theorem words_joinSpace (ws : List (List Char))
    (h : ∀ w ∈ ws, w ≠ [] ∧ ∀ c ∈ w, isSpaceChar c = false) :
    words (joinSpace ws) = ws := by
  induction ws with
  | nil => rfl
  | cons w ws ih =>
      obtain ⟨hw, hwc⟩ := h w (by simp)
      cases ws with
      | nil =>
          show words (joinSep ' ' [w]) = [w]
          simp only [joinSep]
          have hrw : words w = wordsAux (w ++ []) [] := by rw [List.append_nil]; rfl
          rw [hrw, wordsAux_append_nonspace w hwc [] []]
          simp only [wordsAux, List.append_nil]
          rw [if_neg (by simpa using hw)]
          simp
      | cons x ws' =>
          show words (joinSep ' ' (w :: x :: ws')) = w :: x :: ws'
          simp only [joinSep]
          show wordsAux (w ++ ' ' :: joinSep ' ' (x :: ws')) [] = w :: x :: ws'
          rw [wordsAux_append_nonspace w hwc _ []]
          simp only [wordsAux, List.append_nil]
          rw [if_pos (by decide)]
          rw [if_neg (by simpa using hw)]
          rw [List.reverse_reverse]
          exact congrArg (w :: ·) (ih (fun v hv => h v (by simp [hv])))

theorem wordsAux_chars_subset (s : List Char) :
    ∀ acc, ∀ w ∈ wordsAux s acc, ∀ c ∈ w, c ∈ s ∨ c ∈ acc := by
  induction s with
  | nil =>
      intro acc w hw c hc
      simp only [wordsAux] at hw
      split at hw
      · simp at hw
      · simp only [List.mem_singleton] at hw
        subst hw
        exact Or.inr (List.mem_reverse.mp hc)
  | cons a rest ih =>
      intro acc w hw c hc
      simp only [wordsAux] at hw
      split at hw
      · split at hw
        · rcases ih [] w hw c hc with h | h
          · exact Or.inl (by simp [h])
          · simp at h
        · rcases List.mem_cons.mp hw with h | h
          · subst h
            exact Or.inr (List.mem_reverse.mp hc)
          · rcases ih [] w h c hc with h' | h'
            · exact Or.inl (by simp [h'])
            · simp at h'
      · rcases ih (a :: acc) w hw c hc with h | h
        · exact Or.inl (by simp [h])
        · rcases List.mem_cons.mp h with h' | h'
          · exact Or.inl (by simp [h'])
          · exact Or.inr h'

/-- Every character of `words s`'s words occurs in `s`. -/
theorem words_chars_subset (s : List Char) :
    ∀ w ∈ words s, ∀ c ∈ w, c ∈ s := by
  intro w hw c hc
  rcases wordsAux_chars_subset s [] w hw c hc with h | h
  · exact h
  · simp at h

theorem mem_joinSep (sep : Char) :
    ∀ ws : List (List Char), ∀ c ∈ joinSep sep ws, c = sep ∨ ∃ w ∈ ws, c ∈ w := by
  intro ws
  induction ws with
  | nil => intro c hc; simp [joinSep] at hc
  | cons w ws ih =>
      intro c hc
      cases ws with
      | nil =>
          simp only [joinSep] at hc
          exact Or.inr ⟨w, by simp, hc⟩
      | cons x ws' =>
          simp only [joinSep, List.mem_append, List.mem_cons] at hc
          rcases hc with h | h | h
          · exact Or.inr ⟨w, by simp, h⟩
          · exact Or.inl h
          · rcases ih c h with h' | h'
            · exact Or.inl h'
            · obtain ⟨v, hv, hcv⟩ := h'
              exact Or.inr ⟨v, by simp [List.mem_cons.mp hv], hcv⟩

/-- `cleanChar` outputs a space or a lower-case alphanumeric character. -/
theorem cleanChar_cases (c : Char) :
    cleanChar c = ' ' ∨ isLowerAlphaNum (cleanChar c) = true := by
  unfold cleanChar
  by_cases h : isLowerAlphaNum (lowerAscii c)
  · exact Or.inr (by simp [h])
  · exact Or.inl (by simp [h])

theorem alnum_fixed {e : Char} (h : isLowerAlphaNum e = true) :
    e.toNat < 128 ∧ cleanChar e = e := by
  simp only [isLowerAlphaNum, Bool.or_eq_true, Bool.and_eq_true, decide_eq_true_eq] at h
  have hlt : e.toNat < 128 := by omega
  refine ⟨hlt, ?_⟩
  have hlower : lowerAscii e = e := by
    unfold lowerAscii
    rw [if_neg (by omega)]
  unfold cleanChar
  rw [hlower]
  rw [if_pos (by simp only [isLowerAlphaNum, Bool.or_eq_true, Bool.and_eq_true,
    decide_eq_true_eq]; omega)]

theorem space_fixed : (' ').toNat < 128 ∧ cleanChar ' ' = ' ' := by
  refine ⟨by decide, ?_⟩
  decide

/-- Each character of a normalized string is ASCII and is fixed by the
lower-case/alphanumeric cleaning step. -/
theorem normalize_text_chars (s : List Char) :
    ∀ c ∈ normalize_text s, c.toNat < 128 ∧ cleanChar c = c := by
  intro c hc
  unfold normalize_text at hc
  rcases mem_joinSep ' ' _ c hc with h | h
  · subst h; exact space_fixed
  · obtain ⟨w, hw, hcw⟩ := h
    have hcu := words_chars_subset _ w hw c hcw
    rcases List.mem_map.mp hcu with ⟨d, _, hd⟩
    rcases cleanChar_cases d with h' | h'
    · rw [← hd, h']; exact space_fixed
    · rw [← hd]
      exact alnum_fixed (by rw [hd]; rw [hd] at h'; exact h')

theorem map_id_of_mem {α : Type} {f : α → α} :
    ∀ l : List α, (∀ a ∈ l, f a = a) → l.map f = l := by
  intro l
  induction l with
  | nil => intro _; rfl
  | cons a l ih =>
      intro h
      simp only [List.map_cons]
      rw [h a (by simp), ih (fun b hb => h b (by simp [hb]))]

/-- **C9.** The text normalizer is idempotent: normalizing an already
normalized string returns it unchanged.  The code relies on this when it
re-normalizes normalized strings (`score_title` building token sets from
`ref_norm`/`block_norm`, and `proceedings_signals` normalizing a marker
text that already contains `normalized_first_pages`). -/
theorem normalize_text_idempotent (s : List Char) :
    normalize_text (normalize_text s) = normalize_text s := by
  have hchars := normalize_text_chars s
  have hfold : asciiFold (normalize_text s) = normalize_text s := by
    unfold asciiFold
    rw [List.filter_eq_self.mpr]
    intro c hc
    exact decide_eq_true (hchars c hc).1
  have hclean : (normalize_text s).map cleanChar = normalize_text s :=
    map_id_of_mem _ (fun c hc => (hchars c hc).2)
  have hwords : words (normalize_text s) = words ((asciiFold s).map cleanChar) := by
    show words (joinSpace (words ((asciiFold s).map cleanChar))) = _
    exact words_joinSpace _ (words_spaceFree _)
  calc normalize_text (normalize_text s)
      = joinSpace (words ((asciiFold (normalize_text s)).map cleanChar)) := rfl
    _ = joinSpace (words (normalize_text s)) := by rw [hfold, hclean]
    _ = joinSpace (words ((asciiFold s).map cleanChar)) := by rw [hwords]
    _ = normalize_text s := rfl

/-! ### The abstract-start regex

`ABSTRACT_START_RE = ^(?:[A-Z]{1,3}-)?(?:[A-Z]{1,2})?\d{2,3}|\d{2,3})\.\s+(.+)$`
applied by `re.match` to `line.strip()`.  The model implements the engine's
greedy, backtracking search: the optional letter groups try their longest
form first, then shorter ones, then absence; digits try three then two.
The second top-level alternative `\d{2,3}` repeats the first one's
letters-absent path, so it decides nothing.  `\s+` is taken greedily; since
the subject string is stripped it cannot end in whitespace, so the `.+`
that follows never needs to reclaim whitespace characters. -/

/-- A successful abstract-start match: the `code` and `title` groups. -/
structure AbsMatch where
  code : List Char
  title : List Char
deriving DecidableEq

/-- `\d` (ASCII). -/
def isDigitCh (c : Char) : Bool := 48 ≤ c.toNat && c.toNat ≤ 57

/-- `[A-Z]`. -/
def isUpperCh (c : Char) : Bool := 65 ≤ c.toNat && c.toNat ≤ 90

/-- After the code group: a literal dot, one-or-more whitespace, a non-empty
remainder reaching the end of the string. -/
def matchTail (code : List Char) : List Char → Option AbsMatch
  | c :: rest =>
      if c = '.' then
        if (rest.takeWhile isSpaceChar).isEmpty || (rest.dropWhile isSpaceChar).isEmpty then
          none
        else some ⟨code, rest.dropWhile isSpaceChar⟩
      else none
  | [] => none

/-- `\d{2,3}` then the tail, greedily (three digits first, two on failure). -/
def digitsMatch (pre : List Char) (s : List Char) : Option AbsMatch :=
  (match s with
   | d1 :: d2 :: d3 :: rest =>
       if isDigitCh d1 && isDigitCh d2 && isDigitCh d3 then
         matchTail (pre ++ [d1, d2, d3]) rest
       else none
   | _ => none).orElse (fun _ =>
   match s with
   | d1 :: d2 :: rest =>
       if isDigitCh d1 && isDigitCh d2 then matchTail (pre ++ [d1, d2]) rest
       else none
   | _ => none)

/-- `(?:[A-Z]{1,2})?` then digits, greedily (two letters, one, none). -/
def group2Match (pre : List Char) (s : List Char) : Option AbsMatch :=
  (match s with
   | a :: b :: rest =>
       if isUpperCh a && isUpperCh b then digitsMatch (pre ++ [a, b]) rest else none
   | _ => none).orElse (fun _ =>
  (match s with
   | a :: rest => if isUpperCh a then digitsMatch (pre ++ [a]) rest else none
   | _ => none).orElse (fun _ => digitsMatch pre s))

/-- `(?:[A-Z]{1,3}-)?` then the rest, greedily (three letters and a hyphen,
two, one, absent). -/
def group1Match (s : List Char) : Option AbsMatch :=
  (match s with
   | a :: b :: c :: h :: rest =>
       if isUpperCh a && isUpperCh b && isUpperCh c && h = '-' then
         group2Match [a, b, c, h] rest
       else none
   | _ => none).orElse (fun _ =>
  (match s with
   | a :: b :: h :: rest =>
       if isUpperCh a && isUpperCh b && h = '-' then group2Match [a, b, h] rest
       else none
   | _ => none).orElse (fun _ =>
  (match s with
   | a :: h :: rest =>
       if isUpperCh a && h = '-' then group2Match [a, h] rest else none
   | _ => none).orElse (fun _ => group2Match [] s)))

/-- `is_abstract_start` of the source: match the stripped line. -/
def is_abstract_start (line : List Char) : Option AbsMatch :=
  group1Match (stripWS line)

/-- Whether the predicate holds (Python truthiness of the match object). -/
def isAbstractStartB (line : List Char) : Bool :=
  (is_abstract_start line).isSome

/-- `strip_abstract_code` of the source.  The title group starts with a
non-whitespace character and, on a stripped subject, ends with one, so its
own `.strip()` is still applied faithfully here. -/
def strip_abstract_code (line : List Char) : List Char :=
  match is_abstract_start line with
  | some m => stripWS m.title
  | none => stripWS line

/-! ### Substring search and the other line classifiers -/

def isPrefixB : List Char → List Char → Bool
  | [], _ => true
  | _ :: _, [] => false
  | a :: as, b :: bs => a = b && isPrefixB as bs

/-- Python `pat in s` (substring containment). -/
def containsSub (pat : List Char) : List Char → Bool
  | [] => pat.isEmpty
  | c :: rest => isPrefixB pat (c :: rest) || containsSub pat rest

/-- `\w` (ASCII): letters, digits, underscore. -/
def isWordCh (c : Char) : Bool :=
  (65 ≤ c.toNat && c.toNat ≤ 90) || (97 ≤ c.toNat && c.toNat ≤ 122) ||
    (48 ≤ c.toNat && c.toNat ≤ 57) || c = '_'

def wordAt (s : List Char) (i : Nat) : Bool :=
  match s.get? i with
  | some c => isWordCh c
  | none => false

/-- `\b` at position `p`: the word-ness of the characters on the two sides
differs (positions outside the string count as non-word). -/
def boundaryAt (s : List Char) (p : Nat) : Bool :=
  (if p = 0 then false else wordAt s (p - 1)) != wordAt s p

/-- The alternatives of `AUTHOR_CREDENTIAL_RE`, lower-cased (the regex is
compiled with `re.IGNORECASE`). -/
def credentials : List (List Char) :=
  ["md".data, "m.d.".data, "do".data, "d.o.".data, "phd".data, "ph.d.".data,
   "msc".data, "m.s.".data, "ms".data, "bs".data, "b.s.".data, "ba".data,
   "b.a.".data, "mba".data, "mbbs".data, "mph".data, "rn".data, "frcpc".data,
   "faan".data, "frcp".data, "dphil".data]

/-- One credential alternative matching at position `i`, with the `\b`
boundaries of `\b(MD|M\.D\.|…)\b` on both sides. -/
def credAt (line : List Char) (i : Nat) (cred : List Char) : Bool :=
  decide (((line.drop i).take cred.length).map lowerAscii = cred) &&
    boundaryAt line i && boundaryAt line (i + cred.length)

/-- `AUTHOR_CREDENTIAL_RE.search(line)` truthiness. -/
def hasCredential (line : List Char) : Bool :=
  credentials.any (fun cred => (List.range (line.length + 1)).any (fun i => credAt line i cred))

/-- `is_author_like` of the source. -/
def is_author_like (line : List Char) : Bool :=
  hasCredential line || decide (3 ≤ line.count ',') ||
    (line.contains ';' && decide (1 ≤ line.count ','))

def INSTITUTION_MARKERS : List (List Char) :=
  ["university".data, "hospital".data, "medical center".data,
   "school of medicine".data, "clinic".data, "department".data,
   "institute".data, "center".data, "centre".data, "usa".data, "canada".data,
   "united kingdom".data, "australia".data, "japan".data, "italy".data,
   "france".data, "germany".data, "korea".data]

def FOOTER_MARKERS : List (List Char) :=
  ["annals of neurology".data, "downloaded from https://".data,
   "terms and conditions".data, "program and abstracts".data]

/-- `is_institution_like` of the source. -/
def is_institution_like (line : List Char) : Bool :=
  INSTITUTION_MARKERS.any (fun m => containsSub m (normalize_text line))

/-- `is_footer_like` of the source. -/
def is_footer_like (line : List Char) : Bool :=
  FOOTER_MARKERS.any (fun m => containsSub m (normalize_text line))

/-- `[A-Za-z]`. -/
def isAsciiAlphaCh (c : Char) : Bool :=
  (65 ≤ c.toNat && c.toNat ≤ 90) || (97 ≤ c.toNat && c.toNat ≤ 122)

/-- `is_title_like` of the source. -/
def is_title_like (line : List Char) : Bool :=
  if isAbstractStartB line || is_author_like line || is_institution_like line ||
      is_footer_like line then false
  else
    let ws := words line
    if ws.length < 4 || 24 < ws.length then false
    else decide (max 3 (ws.length - 2) ≤ (ws.filter (fun w => w.any isAsciiAlphaCh)).length)

/-! ### Document records, line flattening, detection signals -/

/-- One page of the extraction JSON: `{"page_index": …, "text": …}`. -/
structure Page where
  page_index : Int
  text : List Char
deriving DecidableEq

/-- A document record as the pipeline reads it (its fields already through
`int(... or 0)` / `str(... or "")`). -/
structure Record where
  paper_id : List Char
  source_filename : List Char
  source_sha256 : List Char
  n_pages : Int
  pages : List Page
deriving DecidableEq

/-- `LineRef` of the source. -/
structure LineRef where
  page_index : Int
  line_index : Nat
  text : List Char
deriving DecidableEq

/-- Splitting on a newline, keeping empty pieces.  Python `str.splitlines`
drops one trailing empty piece; since `flatten_lines` discards lines that
collapse to empty and the discarded piece carries the largest index, the
two give the same flattened output. -/
def splitOnNl (s : List Char) : List (List Char) :=
  s.foldr (fun c acc =>
    match acc with
    | [] => [[c]]
    | a :: as => if c = '\n' then [] :: a :: as else (c :: a) :: as) [[]]

/-- `flatten_lines` of the source: per page, split into physical lines,
collapse whitespace, keep non-empty lines with their raw line index. -/
def flatten_lines (record : Record) : List LineRef :=
  (record.pages.map (fun page =>
    (splitOnNl page.text).enum.filterMap (fun p =>
      let line := collapseWS p.2
      if line.isEmpty then none
      else some ⟨page.page_index, p.1, line⟩))).flatten

/-- `PROGRAM_MARKERS` of the source (five phrases). -/
def PROGRAM_MARKERS : List (List Char) :=
  ["annual meeting".data, "program and abstracts".data, "program abstracts".data,
   "poster sessions".data, "poster presentations".data]

/-- The detection signal bundle. -/
structure Signals where
  n_pages : Int
  abstract_block_count : Nat
  title_like_line_count : Nat
  author_like_line_count : Nat
  program_marker_count : Nat
  proceedings_detected : Bool
deriving DecidableEq

/-- `proceedings_signals` of the source. -/
def proceedings_signals (record : Record) (lines : List LineRef) : Signals :=
  let firstWindow := lines.filter (fun l => decide (l.page_index < 40))
  let firstPages := joinSpace ((lines.filter (fun l => decide (l.page_index < 5))).map (fun l => l.text))
  let normalizedFirstPages := normalize_text firstPages
  let abstractCount := (firstWindow.filter (fun l => isAbstractStartB l.text)).length
  let titleLikeCount := (firstWindow.filter (fun l => is_title_like l.text)).length
  let authorLikeCount := (firstWindow.filter (fun l => is_author_like l.text)).length
  let markerText := record.source_filename ++ ' ' :: normalizedFirstPages
  let programMarkerCount :=
    (PROGRAM_MARKERS.filter (fun m => containsSub m (normalize_text markerText))).length
  let detected := decide (40 ≤ record.n_pages) &&
    (decide (8 ≤ abstractCount) ||
      (decide (20 ≤ titleLikeCount) && decide (10 ≤ authorLikeCount)) ||
      decide (0 < programMarkerCount))
  ⟨record.n_pages, abstractCount, titleLikeCount, authorLikeCount, programMarkerCount, detected⟩

/-! ### Claim C2: the detection rule -/

/-- The flattened lines on pages with index below 40 (the detector's
bounded front window), written independently of `proceedings_signals`. -/
def windowLines (record : Record) : List LineRef :=
  (flatten_lines record).filter (fun l => decide (l.page_index < 40))

def countAbstractStarts (record : Record) : Nat :=
  ((windowLines record).filter (fun l => isAbstractStartB l.text)).length

def countTitleLike (record : Record) : Nat :=
  ((windowLines record).filter (fun l => is_title_like l.text)).length

def countAuthorLike (record : Record) : Nat :=
  ((windowLines record).filter (fun l => is_author_like l.text)).length

/-- The text of the pages with index below 5, space-joined. -/
def firstPagesText (record : Record) : List Char :=
  joinSpace (((flatten_lines record).filter (fun l => decide (l.page_index < 5))).map (fun l => l.text))

/-- The program-marker count as the code computes it: the five
`PROGRAM_MARKERS` phrases found in the normalization of the source filename
joined (by one space) with the already-normalized first-5-pages text. -/
def codeMarkerCount (record : Record) : Nat :=
  (PROGRAM_MARKERS.filter (fun m =>
    containsSub m (normalize_text
      (record.source_filename ++ ' ' :: normalize_text (firstPagesText record))))).length

/-- The four phrases the claim (and the spec sentence it quotes) lists;
the source's `PROGRAM_MARKERS` tuple also holds "program abstracts". -/
def claimFourMarkers : List (List Char) :=
  ["annual meeting".data, "program and abstracts".data, "poster sessions".data,
   "poster presentations".data]

/-- The marker count exactly as the claim words it: the four phrases,
occurring in the normalized source filename or in the normalized text of
the first 5 pages. -/
def claimMarkerCount (record : Record) : Nat :=
  (claimFourMarkers.filter (fun m =>
    containsSub m (normalize_text record.source_filename) ||
      containsSub m (normalize_text (firstPagesText record)))).length

/-- The claim's decision rule, verbatim, over the claim's marker count. -/
def claimDetected (record : Record) : Bool :=
  decide (40 ≤ record.n_pages) &&
    (decide (8 ≤ countAbstractStarts record) ||
      (decide (20 ≤ countTitleLike record) && decide (10 ≤ countAuthorLike record)) ||
      decide (0 < claimMarkerCount record))

/-- A 40-page record whose source filename contains "program abstracts" and
nothing else that signals a proceedings document. -/
def recMarkerOnly : Record :=
  ⟨"p1".data, "program abstracts".data, [], 40, []⟩

/-- Ten abstract-start lines on one page. -/
def tenStartLines : List Char :=
  "12. a\n13. b\n14. c\n15. d\n16. e\n17. f\n18. g\n19. h\n20. i\n21. j".data

/-- A 39-page record carrying ten abstract-start lines. -/
def rec39 : Record := ⟨"p39".data, [], [], 39, [⟨0, tenStartLines⟩]⟩

/-- A 40-page record carrying the same ten abstract-start lines. -/
def rec40 : Record := ⟨"p40".data, [], [], 40, [⟨0, tenStartLines⟩]⟩

/-- **C2, counterexample.**  The source's `PROGRAM_MARKERS` tuple holds a
fifth phrase, "program abstracts", which the claim's four-phrase list does
not: a 40-page record whose filename contains "program abstracts" (and no
other signal) is detected by the code, while the claim's decision rule says
it must not be. -/
theorem proceedings_detected_four_marker_cex :
    (proceedings_signals recMarkerOnly (flatten_lines recMarkerOnly)).proceedings_detected = true ∧
      claimDetected recMarkerOnly = false := by
  decide

/-- **C2 (amended).**  `proceedings_detected` is true iff
`n_pages >= 40 AND (abstract_block_count >= 8 OR (title_like_line_count >=
20 AND author_like_line_count >= 10) OR program_marker_count > 0)`, the
counts taken over flattened lines with `page_index < 40`, where
`program_marker_count` counts the five `PROGRAM_MARKERS` phrases (the
claim's four plus "program abstracts") in the normalization of the source
filename space-joined with the normalized first-5-pages text; and the
39-page/40-page boundary documents with ten abstract-start lines are
respectively not flagged and flagged. -/
theorem proceedings_detected_rule :
    (∀ record : Record,
      (proceedings_signals record (flatten_lines record)).proceedings_detected = true ↔
        (40 ≤ record.n_pages ∧
          (8 ≤ countAbstractStarts record ∨
            (20 ≤ countTitleLike record ∧ 10 ≤ countAuthorLike record) ∨
            0 < codeMarkerCount record)))
    ∧ ((proceedings_signals rec39 (flatten_lines rec39)).abstract_block_count = 10 ∧
        (proceedings_signals rec39 (flatten_lines rec39)).proceedings_detected = false)
    ∧ ((proceedings_signals rec40 (flatten_lines rec40)).abstract_block_count = 10 ∧
        (proceedings_signals rec40 (flatten_lines rec40)).proceedings_detected = true) := by
  refine ⟨?_, by decide, by decide⟩
  intro record
  simp only [proceedings_signals, countAbstractStarts, windowLines, countTitleLike,
    countAuthorLike, codeMarkerCount, firstPagesText, Bool.and_eq_true, Bool.or_eq_true,
    decide_eq_true_eq]
  tauto

/-! ### The abstract segmenter -/

/-- `AbstractBlock` of the source (scores default to 0 until scoring). -/
structure AbstractBlock where
  code : List Char
  start_index : Nat
  end_index : Nat
  start_page_index : Int
  end_page_index : Int
  title_text : List Char
  header_text : List Char
  preview_text : List Char
  line_refs : List LineRef
  title_score : ℚ
  author_score : ℚ
  match_score : ℚ
deriving DecidableEq

/-- The default used only to model total indexing (never reached on the
in-range indices the segmenter produces). -/
def noLine : LineRef := ⟨0, 0, []⟩

/-- `[index for index, line in enumerate(lines) if is_abstract_start(line.text)]`. -/
def startIdxs (lines : List LineRef) : List Nat :=
  (List.range lines.length).filter (fun i => isAbstractStartB (lines.getD i noLine).text)

/-- The loop appending up to four title-continuation lines: it stops at the
first abstract-start / author-like / institution-like line, or at a
footer-like line. -/
def titleExtra : List LineRef → List (List Char)
  | [] => []
  | l :: rest =>
      if isAbstractStartB l.text || is_author_like l.text || is_institution_like l.text then []
      else if is_footer_like l.text then []
      else l.text :: titleExtra rest

/-- The block built from `lines[start_index:end_index]` (non-empty). -/
def mkBlock (i e : Nat) (blockLines : List LineRef) : AbstractBlock :=
  let first := blockLines.headD noLine
  let extras := titleExtra ((blockLines.drop 1).take 4)
  let consumed := 1 + extras.length
  let titleParts := strip_abstract_code first.text :: extras
  let headerLines := (blockLines.take (min blockLines.length (consumed + 4))).map (fun l => l.text)
  let previewLines :=
    ((blockLines.take (min blockLines.length 12)).filter (fun l => !is_footer_like l.text)).map
      (fun l => l.text)
  { code := match is_abstract_start first.text with
      | some m => m.code
      | none => []
    start_index := i
    end_index := e
    start_page_index := first.page_index
    end_page_index := (blockLines.getLastD noLine).page_index
    title_text := joinSpace ((titleParts.map stripWS).filter (fun p => !p.isEmpty))
    header_text := joinSpace headerLines
    preview_text := joinSpace previewLines
    line_refs := blockLines
    title_score := 0
    author_score := 0
    match_score := 0 }

/-- The segmentation loop: each start index opens a block that runs to the
next start index (or the end of the line sequence). -/
def extractBlocksAux (lines : List LineRef) : List Nat → List AbstractBlock
  | [] => []
  | i :: rest =>
      let e := match rest with
        | [] => lines.length
        | j :: _ => j
      let blockLines := (lines.drop i).take (e - i)
      if blockLines.isEmpty then extractBlocksAux lines rest
      else mkBlock i e blockLines :: extractBlocksAux lines rest

/-- `extract_blocks` of the source. -/
def extract_blocks (lines : List LineRef) : List AbstractBlock :=
  extractBlocksAux lines (startIdxs lines)

/-! ### Claim C4: the blocks partition the suffix at the first start line -/

/-- The half-open ranges delimited by consecutive members of a start-index
list, the last one closed by `n`. -/
def consecRanges : List Nat → Nat → List (Nat × Nat)
  | [], _ => []
  | [i], n => [(i, n)]
  | i :: j :: rest, n => (i, j) :: consecRanges (j :: rest) n

theorem startIdxs_sorted (lines : List LineRef) :
    List.Pairwise (· < ·) (startIdxs lines) :=
  (List.pairwise_lt_range _).sublist (List.filter_sublist _)

theorem startIdxs_lt_length (lines : List LineRef) :
    ∀ i ∈ startIdxs lines, i < lines.length := by
  intro i hi
  have := List.of_mem_filter hi
  exact List.mem_range.mp (List.mem_of_mem_filter hi)

theorem extractBlocksAux_ranges (lines : List LineRef) :
    ∀ S : List Nat, List.Pairwise (· < ·) S → (∀ i ∈ S, i < lines.length) →
      (extractBlocksAux lines S).map (fun b => (b.start_index, b.end_index)) =
        consecRanges S lines.length := by
  intro S
  induction S with
  | nil => intro _ _; rfl
  | cons i rest ih =>
      intro hsort hmem
      have hi : i < lines.length := hmem i (by simp)
      cases rest with
      | nil =>
          have hne : ¬ ((lines.drop i).take (lines.length - i)).isEmpty := by
            rw [List.isEmpty_iff, ← List.length_eq_zero, List.length_take, List.length_drop]
            omega
          simp only [extractBlocksAux, hne, if_false, List.map_cons, mkBlock, consecRanges]
          rfl
      | cons j rest' =>
          have hij : i < j := List.rel_of_pairwise_cons hsort (by simp)
          have hne : ¬ ((lines.drop i).take (j - i)).isEmpty := by
            rw [List.isEmpty_iff, ← List.length_eq_zero, List.length_take, List.length_drop]
            omega
          simp only [extractBlocksAux, hne, if_false, List.map_cons, consecRanges]
          refine congrArg ((i, j) :: ·) ?_
          exact ih (List.Pairwise.of_cons hsort) (fun a ha => hmem a (by simp [ha]))

theorem consecRanges_length : ∀ (S : List Nat) (n : Nat), (consecRanges S n).length = S.length := by
  intro S
  induction S with
  | nil => intro n; rfl
  | cons i rest ih =>
      intro n
      cases rest with
      | nil => rfl
      | cons j rest' => simpa [consecRanges] using ih n

theorem consecRanges_fst : ∀ (S : List Nat) (n : Nat), ∀ p ∈ consecRanges S n, p.1 ∈ S := by
  intro S
  induction S with
  | nil => intro n p hp; simp [consecRanges] at hp
  | cons i rest ih =>
      intro n p hp
      cases rest with
      | nil =>
          simp only [consecRanges, List.mem_singleton] at hp
          simp [hp]
      | cons j rest' =>
          simp only [consecRanges, List.mem_cons] at hp
          rcases hp with h | h
          · simp [h]
          · exact List.mem_cons_of_mem _ (ih n p h)

theorem consecRanges_lt (S : List Nat) (n : Nat) (hsort : List.Pairwise (· < ·) S)
    (hmem : ∀ i ∈ S, i < n) : ∀ p ∈ consecRanges S n, p.1 < p.2 := by
  induction S with
  | nil => intro p hp; simp [consecRanges] at hp
  | cons i rest ih =>
      intro p hp
      cases rest with
      | nil =>
          simp only [consecRanges, List.mem_singleton] at hp
          subst hp
          exact hmem i (by simp)
      | cons j rest' =>
          simp only [consecRanges, List.mem_cons] at hp
          rcases hp with h | h
          · subst h
            exact List.rel_of_pairwise_cons hsort (by simp)
          · exact ih (List.Pairwise.of_cons hsort) (fun a ha => hmem a (by simp [ha])) p h

theorem consecRanges_pairwise (S : List Nat) (n : Nat) (hsort : List.Pairwise (· < ·) S) :
    List.Pairwise (fun p q : Nat × Nat => p.2 ≤ q.1) (consecRanges S n) := by
  induction S with
  | nil => exact List.Pairwise.nil
  | cons i rest ih =>
      cases rest with
      | nil => exact List.pairwise_singleton _ _
      | cons j rest' =>
          refine List.pairwise_cons.mpr ⟨?_, ih (List.Pairwise.of_cons hsort)⟩
          intro p hp
          have hfst : p.1 ∈ j :: rest' := consecRanges_fst _ n p hp
          rcases List.mem_cons.mp hfst with h | h
          · omega
          · have : j < p.1 :=
              List.rel_of_pairwise_cons (List.Pairwise.of_cons hsort) h
            omega

theorem consecRanges_cover (S : List Nat) (n : Nat) (hsort : List.Pairwise (· < ·) S)
    (hmem : ∀ i ∈ S, i < n) :
    ∀ k : Nat, (∃ p ∈ consecRanges S n, p.1 ≤ k ∧ k < p.2) ↔
      ((∃ f, S.head? = some f ∧ f ≤ k) ∧ k < n) := by
  induction S with
  | nil =>
      intro k
      simp [consecRanges]
  | cons i rest ih =>
      intro k
      cases rest with
      | nil =>
          simp only [consecRanges, List.mem_singleton, List.head?_cons]
          constructor
          · rintro ⟨p, hp, h1, h2⟩
            subst hp
            exact ⟨⟨i, rfl, h1⟩, h2⟩
          · rintro ⟨⟨f, hf, hfk⟩, hk⟩
            cases hf
            exact ⟨(i, n), rfl, hfk, hk⟩
      | cons j rest' =>
          have hij : i < j := List.rel_of_pairwise_cons hsort (by simp)
          have ihc := ih (List.Pairwise.of_cons hsort) (fun a ha => hmem a (by simp [ha])) k
          simp only [consecRanges, List.mem_cons, List.head?_cons] at ihc ⊢
          constructor
          · rintro ⟨p, hp, h1, h2⟩
            rcases hp with h | h
            · subst h
              have hjn : j < n := hmem j (by simp)
              exact ⟨⟨i, rfl, h1⟩, by omega⟩
            · obtain ⟨⟨f, hf, hfk⟩, hk⟩ := ihc.mp ⟨p, h, h1, h2⟩
              cases hf
              exact ⟨⟨i, rfl, by omega⟩, hk⟩
          · rintro ⟨⟨f, hf, hfk⟩, hk⟩
            cases hf
            by_cases hkj : k < j
            · exact ⟨(i, j), Or.inl rfl, hfk, hkj⟩
            · obtain ⟨p, hp, h1, h2⟩ := ihc.mpr ⟨⟨j, rfl, by omega⟩, hk⟩
              exact ⟨p, Or.inr hp, h1, h2⟩

/-- **C4.**  The segmenter's blocks all satisfy `start_index < end_index`,
are pairwise non-overlapping in document order, and their half-open ranges
exactly cover the suffix of the line sequence that begins at the first
abstract-start line (a position `k` lies in some block iff the first
abstract-start index exists and is `≤ k`, and `k` is a valid line index);
there are exactly as many blocks as abstract-start lines, and a document
with zero abstract-start lines yields zero blocks. -/
theorem extract_blocks_partition (lines : List LineRef) :
    (∀ b ∈ extract_blocks lines, b.start_index < b.end_index)
    ∧ List.Pairwise (fun b1 b2 => b1.end_index ≤ b2.start_index) (extract_blocks lines)
    ∧ (∀ k : Nat, (∃ b ∈ extract_blocks lines, b.start_index ≤ k ∧ k < b.end_index) ↔
        ((∃ f, (startIdxs lines).head? = some f ∧ f ≤ k) ∧ k < lines.length))
    ∧ (extract_blocks lines).length = (startIdxs lines).length
    ∧ (startIdxs lines = [] → extract_blocks lines = []) := by
  have hsort := startIdxs_sorted lines
  have hmem := startIdxs_lt_length lines
  have hmap := extractBlocksAux_ranges lines (startIdxs lines) hsort hmem
  refine ⟨?_, ?_, ?_, ?_, ?_⟩
  · intro b hb
    have hpair : (b.start_index, b.end_index) ∈ consecRanges (startIdxs lines) lines.length := by
      rw [← hmap]
      exact List.mem_map.mpr ⟨b, hb, rfl⟩
    exact consecRanges_lt _ _ hsort hmem _ hpair
  · have := consecRanges_pairwise (startIdxs lines) lines.length hsort
    rw [← hmap] at this
    have h2 := List.pairwise_map.mp this
    exact h2.imp (fun h => h)
  · intro k
    have hcover := consecRanges_cover (startIdxs lines) lines.length hsort hmem k
    rw [← hmap] at hcover
    constructor
    · rintro ⟨b, hb, h1, h2⟩
      exact hcover.mp ⟨(b.start_index, b.end_index), List.mem_map.mpr ⟨b, hb, rfl⟩, h1, h2⟩
    · intro h
      obtain ⟨p, hp, h1, h2⟩ := hcover.mpr h
      obtain ⟨b, hb, hbp⟩ := List.mem_map.mp hp
      refine ⟨b, hb, ?_, ?_⟩
      · rw [show b.start_index = p.1 from by rw [← hbp]]
        exact h1
      · rw [show b.end_index = p.2 from by rw [← hbp]]
        exact h2
  · have := congrArg List.length hmap
    rw [List.length_map, consecRanges_length] at this
    exact this
  · intro h
    show extractBlocksAux lines (startIdxs lines) = []
    rw [h]
    rfl

/-! ### `difflib.SequenceMatcher(None, a, b).ratio()`

Modelled without junk: `SequenceMatcher` is created with `isjunk=None`, and
its autojunk heuristic only triggers for a second string of 200+ characters
(longer than any string a concrete theorem below evaluates on).  The
matcher finds the longest common substring of the current window (ties:
smallest end position in `a`, then in `b`, exactly difflib's strict
`k > bestsize` update during its ascending scan), recurses left and right,
and `ratio` is twice the total matched length over the total length. -/

def commonPrefixLen : List Char → List Char → Nat
  | a :: as, b :: bs => if a = b then commonPrefixLen as bs + 1 else 0
  | _, _ => 0

/-- Length of the longest common suffix of `a[alo..i]` and `b[blo..j]`
ending exactly at positions `i` and `j` (difflib's `j2len` chain value). -/
def suffixLenAt (a b : List Char) (alo blo i j : Nat) : Nat :=
  commonPrefixLen ((a.take (i + 1)).drop alo).reverse ((b.take (j + 1)).drop blo).reverse

/-- `find_longest_match` on the window `[alo,ahi) × [blo,bhi)`. -/
def findLongestMatch (a b : List Char) (alo ahi blo bhi : Nat) : Nat × Nat × Nat :=
  (List.range' alo (ahi - alo)).foldl (fun best i =>
    (List.range' blo (bhi - blo)).foldl (fun best j =>
      let k := suffixLenAt a b alo blo i j
      if best.2.2 < k then (i + 1 - k, j + 1 - k, k) else best) best)
    (alo, blo, 0)

/-- The total size of `get_matching_blocks` (the recursion of difflib's
queue), with explicit fuel; every recursive call strictly shrinks the
`a`-window, so `a.length + 1` fuel always suffices. -/
def matchTotal (a b : List Char) : Nat → Nat → Nat → Nat → Nat → Nat
  | 0, _, _, _, _ => 0
  | fuel + 1, alo, ahi, blo, bhi =>
      let m := findLongestMatch a b alo ahi blo bhi
      if m.2.2 = 0 then 0
      else
        m.2.2 + (if alo < m.1 ∧ blo < m.2.1 then matchTotal a b fuel alo m.1 blo m.2.1 else 0)
          + (if m.1 + m.2.2 < ahi ∧ m.2.1 + m.2.2 < bhi then
              matchTotal a b fuel (m.1 + m.2.2) ahi (m.2.1 + m.2.2) bhi else 0)

/-- `SequenceMatcher(None, a, b).ratio()` (2.0 * matches / total; difflib
returns 1.0 when both strings are empty). -/
def sequenceRatio (a b : List Char) : ℚ :=
  if a.length + b.length = 0 then 1
  else (2 * (matchTotal a b (a.length + 1) 0 a.length 0 b.length) : ℚ) / ((a.length + b.length : Nat) : ℚ)

theorem commonPrefixLen_le_left : ∀ xs ys : List Char, commonPrefixLen xs ys ≤ xs.length := by
  intro xs
  induction xs with
  | nil => intro ys; cases ys <;> simp [commonPrefixLen]
  | cons a as ih =>
      intro ys
      cases ys with
      | nil => simp [commonPrefixLen]
      | cons b bs =>
          simp only [commonPrefixLen, List.length_cons]
          split
          · exact Nat.succ_le_succ (ih bs)
          · omega

theorem commonPrefixLen_le_right : ∀ xs ys : List Char, commonPrefixLen xs ys ≤ ys.length := by
  intro xs
  induction xs with
  | nil => intro ys; cases ys <;> simp [commonPrefixLen]
  | cons a as ih =>
      intro ys
      cases ys with
      | nil => simp [commonPrefixLen]
      | cons b bs =>
          simp only [commonPrefixLen, List.length_cons]
          split
          · exact Nat.succ_le_succ (ih bs)
          · omega

theorem suffixLenAt_le_left (a b : List Char) (alo blo i j : Nat) :
    suffixLenAt a b alo blo i j ≤ i + 1 - alo := by
  have h := commonPrefixLen_le_left ((a.take (i + 1)).drop alo).reverse
    ((b.take (j + 1)).drop blo).reverse
  simp only [List.length_reverse, List.length_drop, List.length_take] at h
  exact h.trans (by omega)

theorem suffixLenAt_le_right (a b : List Char) (alo blo i j : Nat) :
    suffixLenAt a b alo blo i j ≤ j + 1 - blo := by
  have h := commonPrefixLen_le_right ((a.take (i + 1)).drop alo).reverse
    ((b.take (j + 1)).drop blo).reverse
  simp only [List.length_reverse, List.length_drop, List.length_take] at h
  exact h.trans (by omega)

/-- The window invariant of `find_longest_match`: the returned match lies
inside `[alo,ahi) × [blo,bhi)`. -/
theorem findLongestMatch_bounds (a b : List Char) (alo ahi blo bhi : Nat)
    (ha : alo ≤ ahi) (hb : blo ≤ bhi) :
    alo ≤ (findLongestMatch a b alo ahi blo bhi).1 ∧
    (findLongestMatch a b alo ahi blo bhi).1 + (findLongestMatch a b alo ahi blo bhi).2.2 ≤ ahi ∧
    blo ≤ (findLongestMatch a b alo ahi blo bhi).2.1 ∧
    (findLongestMatch a b alo ahi blo bhi).2.1 + (findLongestMatch a b alo ahi blo bhi).2.2 ≤ bhi := by
  unfold findLongestMatch
  apply List.foldlRecOn (motive := fun best : Nat × Nat × Nat =>
    alo ≤ best.1 ∧ best.1 + best.2.2 ≤ ahi ∧ blo ≤ best.2.1 ∧ best.2.1 + best.2.2 ≤ bhi)
  · exact ⟨le_refl _, by simp; omega, le_refl _, by simp; omega⟩
  · intro best hbest i hi
    have hiR : alo ≤ i ∧ i < ahi := by
      rcases List.mem_range'.mp hi with ⟨t, ht, rfl⟩
      omega
    apply List.foldlRecOn (motive := fun best : Nat × Nat × Nat =>
      alo ≤ best.1 ∧ best.1 + best.2.2 ≤ ahi ∧ blo ≤ best.2.1 ∧ best.2.1 + best.2.2 ≤ bhi)
    · exact hbest
    · intro cur hcur j hj
      have hjR : blo ≤ j ∧ j < bhi := by
        rcases List.mem_range'.mp hj with ⟨t, ht, rfl⟩
        omega
      by_cases hk : cur.2.2 < suffixLenAt a b alo blo i j
      · simp only [hk, if_pos]
        have h1 := suffixLenAt_le_left a b alo blo i j
        have h2 := suffixLenAt_le_right a b alo blo i j
        exact ⟨by omega, by omega, by omega, by omega⟩
      · simpa [hk] using hcur

/-- The total matched size never exceeds either window. -/
theorem matchTotal_le (a b : List Char) :
    ∀ fuel alo ahi blo bhi, alo ≤ ahi → blo ≤ bhi →
      matchTotal a b fuel alo ahi blo bhi ≤ ahi - alo ∧
      matchTotal a b fuel alo ahi blo bhi ≤ bhi - blo := by
  intro fuel
  induction fuel with
  | zero => intro alo ahi blo bhi _ _; simp [matchTotal]
  | succ n ih =>
      intro alo ahi blo bhi ha hb
      obtain ⟨h1, h2, h3, h4⟩ := findLongestMatch_bounds a b alo ahi blo bhi ha hb
      simp only [matchTotal]
      set m := findLongestMatch a b alo ahi blo bhi with hm
      by_cases hk : m.2.2 = 0
      · simp [hk]
      · rw [if_neg hk]
        have hL : (if alo < m.1 ∧ blo < m.2.1 then matchTotal a b n alo m.1 blo m.2.1 else 0) ≤
            m.1 - alo ∧
            (if alo < m.1 ∧ blo < m.2.1 then matchTotal a b n alo m.1 blo m.2.1 else 0) ≤
            m.2.1 - blo := by
          split
          · rename_i hcond
            exact ih alo m.1 blo m.2.1 (by omega) (by omega)
          · omega
        have hR : (if m.1 + m.2.2 < ahi ∧ m.2.1 + m.2.2 < bhi then
              matchTotal a b n (m.1 + m.2.2) ahi (m.2.1 + m.2.2) bhi else 0) ≤
            ahi - (m.1 + m.2.2) ∧
            (if m.1 + m.2.2 < ahi ∧ m.2.1 + m.2.2 < bhi then
              matchTotal a b n (m.1 + m.2.2) ahi (m.2.1 + m.2.2) bhi else 0) ≤
            bhi - (m.2.1 + m.2.2) := by
          split
          · rename_i hcond
            exact ih (m.1 + m.2.2) ahi (m.2.1 + m.2.2) bhi (by omega) (by omega)
          · omega
        omega

/-- The sequence ratio lies in `[0,1]`. -/
theorem sequenceRatio_bounds (a b : List Char) :
    0 ≤ sequenceRatio a b ∧ sequenceRatio a b ≤ 1 := by
  unfold sequenceRatio
  split
  · norm_num
  · rename_i hlen
    have hM := matchTotal_le a b (a.length + 1) 0 a.length 0 b.length (by omega) (by omega)
    have hMa : matchTotal a b (a.length + 1) 0 a.length 0 b.length ≤ a.length := by
      simpa using hM.1
    have hMb : matchTotal a b (a.length + 1) 0 a.length 0 b.length ≤ b.length := by
      simpa using hM.2
    have hpos : (0 : ℚ) < ((a.length + b.length : Nat) : ℚ) := by
      have : 0 < a.length + b.length := Nat.pos_of_ne_zero hlen
      exact_mod_cast this
    constructor
    · apply div_nonneg
      · positivity
      · exact le_of_lt hpos
    · rw [div_le_one hpos]
      have : (matchTotal a b (a.length + 1) 0 a.length 0 b.length : ℚ) * 2 ≤
          ((a.length + b.length : Nat) : ℚ) := by
        push_cast
        have := Nat.add_le_add hMa hMb
        exact_mod_cast by omega
      linarith

/-! ### The candidate scorer -/

/-- `score_title` of the source. -/
def score_title (reference_title block_title : List Char) : ℚ :=
  let ref_norm := normalize_text reference_title
  let block_norm := normalize_text block_title
  if ref_norm.isEmpty || block_norm.isEmpty then 0
  else if ref_norm = block_norm then 1
  else
    let sequence := sequenceRatio ref_norm block_norm
    let overlap0 : ℚ :=
      ((token_set ref_norm 4 ∩ token_set block_norm 4).card : ℚ) /
        ((max 1 (token_set ref_norm 4).card : Nat) : ℚ)
    let overlap :=
      if containsSub ref_norm block_norm || containsSub block_norm ref_norm then
        max overlap0 (95 / 100)
      else overlap0
    max sequence (65 / 100 * sequence + 35 / 100 * overlap)

/-- `re.split(r";", s)`: split on semicolons, keeping empty pieces. -/
def splitSemi (s : List Char) : List (List Char) :=
  s.foldr (fun c acc =>
    match acc with
    | [] => [[c]]
    | a :: as => if c = ';' then [] :: a :: as else (c :: a) :: as) [[]]

/-- `part.split(",", 1)[0]`. -/
def beforeComma (s : List Char) : List Char :=
  s.takeWhile (fun c => c ≠ ',')

/-- `parse_reference_surnames` of the source: normalized surnames (text
before the first comma of each semicolon-separated author), de-duplicated
in order, capped at six. -/
def parse_reference_surnames (authors : List Char) : List (List Char) :=
  (((splitSemi authors).foldl (fun (acc : List (List Char)) chunk =>
    let part := stripWS chunk
    if part.isEmpty then acc
    else
      let normalized := normalize_text (stripWS (beforeComma part))
      if normalized.isEmpty || acc.contains normalized then acc
      else acc ++ [normalized]) []).take 6)

/-- `score_authors` of the source. -/
def score_authors (reference_authors block_text : List Char) : ℚ :=
  let surnames := parse_reference_surnames reference_authors
  if surnames.isEmpty then 0
  else
    let normalized_block := normalize_text block_text
    let block_tokens := token_set block_text 3
    let nMatched := (surnames.filter (fun surname =>
      containsSub surname normalized_block ||
        (let st := (words surname).filter (fun t => 3 ≤ t.length)
         !st.isEmpty && st.all (fun t => decide (t ∈ block_tokens))))).length
    (nMatched : ℚ) / (surnames.length : ℚ)

/-- The scoring `best_matching_block` performs on each visited block
(write-once on the block's three score fields). -/
def scoreBlock (reference_title reference_authors : List Char) (b : AbstractBlock) :
    AbstractBlock :=
  let ts := score_title reference_title b.title_text
  let sa := score_authors reference_authors b.preview_text
  { b with
    title_score := ts
    author_score := sa
    match_score := 75 / 100 * ts + 25 / 100 * sa }

/-- The selection loop of `best_matching_block`: a later block replaces the
current best only when its match score is strictly greater. -/
def bestAux (cur : AbstractBlock) : List AbstractBlock → AbstractBlock
  | [] => cur
  | b :: rest => bestAux (if cur.match_score < b.match_score then b else cur) rest

/-- `best_matching_block` of the source. -/
def best_matching_block (blocks : List AbstractBlock)
    (reference_title reference_authors : List Char) : Option AbstractBlock :=
  match blocks.map (scoreBlock reference_title reference_authors) with
  | [] => none
  | b :: rest => some (bestAux b rest)

theorem bestAux_mem :
    ∀ (l : List AbstractBlock) (cur : AbstractBlock), bestAux cur l ∈ cur :: l := by
  intro l
  induction l with
  | nil => intro cur; simp [bestAux]
  | cons b rest ih =>
      intro cur
      show bestAux (if cur.match_score < b.match_score then b else cur) rest ∈ cur :: b :: rest
      rcases List.mem_cons.mp (ih (if cur.match_score < b.match_score then b else cur)) with h | h
      · rw [h]
        split
        · exact List.mem_cons_of_mem _ (List.mem_cons_self _ _)
        · exact List.mem_cons_self _ _
      · exact List.mem_cons_of_mem _ (List.mem_cons_of_mem _ h)

theorem bestAux_ge :
    ∀ (l : List AbstractBlock) (cur : AbstractBlock), ∀ x ∈ cur :: l,
      x.match_score ≤ (bestAux cur l).match_score := by
  intro l
  induction l with
  | nil =>
      intro cur x hx
      rcases List.mem_cons.mp hx with h | h
      · subst h; exact le_refl _
      · simp at h
  | cons b rest ih =>
      intro cur x hx
      have hnext : cur.match_score ≤ (if cur.match_score < b.match_score then b else cur).match_score ∧
          b.match_score ≤ (if cur.match_score < b.match_score then b else cur).match_score := by
        split
        · rename_i hc
          exact ⟨le_of_lt hc, le_refl _⟩
        · rename_i hc
          exact ⟨le_refl _, le_of_not_lt hc⟩
      have hbn := ih (if cur.match_score < b.match_score then b else cur) _
        (List.mem_cons_self _ _)
      show x.match_score ≤
        (bestAux (if cur.match_score < b.match_score then b else cur) rest).match_score
      rcases List.mem_cons.mp hx with h | h
      · subst h
        exact le_trans hnext.1 hbn
      · rcases List.mem_cons.mp h with h' | h'
        · subst h'
          exact le_trans hnext.2 hbn
        · exact ih _ x (List.mem_cons_of_mem _ h')

/-- The selection loop keeps the first of the maximal-score blocks: the
result splits the visited list into a strictly-smaller prefix and a
no-greater suffix. -/
theorem bestAux_first :
    ∀ (l : List AbstractBlock) (cur : AbstractBlock), ∃ pre suf,
      cur :: l = pre ++ (bestAux cur l) :: suf ∧
      (∀ x ∈ pre, x.match_score < (bestAux cur l).match_score) ∧
      (∀ x ∈ suf, x.match_score ≤ (bestAux cur l).match_score) := by
  intro l
  induction l with
  | nil =>
      intro cur
      exact ⟨[], [], by simp [bestAux], by simp, by simp⟩
  | cons b rest ih =>
      intro cur
      by_cases hc : cur.match_score < b.match_score
      · have hb : bestAux cur (b :: rest) = bestAux b rest := by
          simp only [bestAux, if_pos hc]
        obtain ⟨pre, suf, heq, hpre, hsuf⟩ := ih b
        rw [hb]
        refine ⟨cur :: pre, suf, ?_, ?_, hsuf⟩
        · rw [List.cons_append]
          exact congrArg (cur :: ·) heq
        · intro x hx
          rcases List.mem_cons.mp hx with h | h
          · subst h
            exact lt_of_lt_of_le hc (bestAux_ge rest b b (List.mem_cons_self _ _))
          · exact hpre x h
      · have hb : bestAux cur (b :: rest) = bestAux cur rest := by
          simp only [bestAux, if_neg hc]
        obtain ⟨pre, suf, heq, hpre, hsuf⟩ := ih cur
        rw [hb]
        cases pre with
        | nil =>
            simp only [List.nil_append] at heq
            injection heq with h1 h2
            refine ⟨[], b :: rest, by rw [← h1]; rfl, by simp, ?_⟩
            intro x hx
            rcases List.mem_cons.mp hx with h | h
            · subst h
              rw [← h1]
              exact le_of_not_lt hc
            · rw [h2] at h
              exact hsuf x h
        | cons p ps =>
            rw [List.cons_append] at heq
            injection heq with h1 h2
            refine ⟨cur :: b :: ps, suf, ?_, ?_, hsuf⟩
            · rw [List.cons_append, List.cons_append]
              exact congrArg (cur :: ·) (congrArg (b :: ·) h2)
            · have hcur : cur.match_score < (bestAux cur rest).match_score := by
                have hp := hpre p (List.mem_cons_self _ _)
                rw [← h1] at hp
                exact hp
              intro x hx
              rcases List.mem_cons.mp hx with h | h
              · subst h; exact hcur
              · rcases List.mem_cons.mp h with h' | h'
                · subst h'
                  exact lt_of_le_of_lt (le_of_not_lt hc) hcur
                · exact hpre x (List.mem_cons_of_mem _ h')

theorem score_authors_bounds (reference_authors block_text : List Char) :
    0 ≤ score_authors reference_authors block_text ∧
    score_authors reference_authors block_text ≤ 1 := by
  by_cases h : (parse_reference_surnames reference_authors).isEmpty
  · simp [score_authors, h]
  · simp only [score_authors, h, Bool.false_eq_true, if_false]
    have hpos : 0 < (parse_reference_surnames reference_authors).length := by
      cases hsn : parse_reference_surnames reference_authors with
      | nil => rw [hsn] at h; simp at h
      | cons a l => simp
    have hposQ : (0 : ℚ) < ((parse_reference_surnames reference_authors).length : ℚ) := by
      exact_mod_cast hpos
    constructor
    · apply div_nonneg
      · positivity
      · exact le_of_lt hposQ
    · rw [div_le_one hposQ]
      exact_mod_cast List.length_filter_le _ _

theorem score_title_bounds (reference_title block_title : List Char) :
    0 ≤ score_title reference_title block_title ∧
    score_title reference_title block_title ≤ 1 := by
  unfold score_title
  by_cases h1 : (normalize_text reference_title).isEmpty || (normalize_text block_title).isEmpty
  · simp [h1]
  · rw [if_neg (by simp_all)]
    by_cases h2 : normalize_text reference_title = normalize_text block_title
    · rw [if_pos h2]
      norm_num
    · rw [if_neg h2]
      obtain ⟨hs0, hs1⟩ := sequenceRatio_bounds (normalize_text reference_title)
        (normalize_text block_title)
      have hden : (0 : ℚ) <
          ((max 1 (token_set (normalize_text reference_title) 4).card : Nat) : ℚ) := by
        have : 0 < max 1 (token_set (normalize_text reference_title) 4).card := by omega
        exact_mod_cast this
      have hnum : ((token_set (normalize_text reference_title) 4 ∩
            token_set (normalize_text block_title) 4).card : ℚ) ≤
          ((max 1 (token_set (normalize_text reference_title) 4).card : Nat) : ℚ) := by
        have hc : (token_set (normalize_text reference_title) 4 ∩
              token_set (normalize_text block_title) 4).card ≤
            max 1 (token_set (normalize_text reference_title) 4).card := by
          have h2 := Finset.card_le_card (@Finset.inter_subset_left (List Char) _
            (token_set (normalize_text reference_title) 4)
            (token_set (normalize_text block_title) 4))
          omega
        exact_mod_cast hc
      have ho0 : (0 : ℚ) ≤ ((token_set (normalize_text reference_title) 4 ∩
            token_set (normalize_text block_title) 4).card : ℚ) /
          ((max 1 (token_set (normalize_text reference_title) 4).card : Nat) : ℚ) := by
        apply div_nonneg
        · positivity
        · exact le_of_lt hden
      have ho1 : ((token_set (normalize_text reference_title) 4 ∩
            token_set (normalize_text block_title) 4).card : ℚ) /
          ((max 1 (token_set (normalize_text reference_title) 4).card : Nat) : ℚ) ≤ 1 := by
        rw [div_le_one hden]
        exact hnum
      set o0 : ℚ := ((token_set (normalize_text reference_title) 4 ∩
            token_set (normalize_text block_title) 4).card : ℚ) /
          ((max 1 (token_set (normalize_text reference_title) 4).card : Nat) : ℚ) with ho
      set ov : ℚ := if containsSub (normalize_text reference_title) (normalize_text block_title) ||
            containsSub (normalize_text block_title) (normalize_text reference_title) then
          max o0 (95 / 100) else o0 with hov
      have hov0 : 0 ≤ ov := by
        rw [hov]
        split
        · exact le_trans ho0 (le_max_left _ _)
        · exact ho0
      have hov1 : ov ≤ 1 := by
        rw [hov]
        split
        · exact max_le ho1 (by norm_num)
        · exact ho1
      constructor
      · exact le_trans hs0 (le_max_left _ _)
      · apply max_le hs1
        linarith

/-- **C6.**  On a non-empty block list the scorer selects a block of
maximal `match_score`, and on exact ties the earliest block in document
order wins: the scored list splits into a strictly-smaller prefix, the
selected block, and a no-greater suffix (a later block replaces the current
best only when strictly greater). -/
theorem best_matching_block_first_max (blocks : List AbstractBlock)
    (reference_title reference_authors : List Char) (hne : blocks ≠ []) :
    ∃ b, best_matching_block blocks reference_title reference_authors = some b ∧
      (∀ x ∈ blocks.map (scoreBlock reference_title reference_authors),
        x.match_score ≤ b.match_score) ∧
      ∃ pre suf,
        blocks.map (scoreBlock reference_title reference_authors) = pre ++ b :: suf ∧
        (∀ x ∈ pre, x.match_score < b.match_score) ∧
        (∀ x ∈ suf, x.match_score ≤ b.match_score) := by
  cases hmap : blocks.map (scoreBlock reference_title reference_authors) with
  | nil =>
      cases blocks with
      | nil => exact absurd rfl hne
      | cons b bs => simp at hmap
  | cons b0 rest =>
      refine ⟨bestAux b0 rest, ?_, ?_, ?_⟩
      · unfold best_matching_block
        rw [hmap]
      · intro x hx
        exact bestAux_ge rest b0 x hx
      · obtain ⟨pre, suf, heq, hpre, hsuf⟩ := bestAux_first rest b0
        exact ⟨pre, suf, heq, hpre, hsuf⟩

/-- Two blocks whose titles score identically (both zero) against an empty
reference: an exact tie. -/
def blockA : AbstractBlock := ⟨[], 0, 1, 0, 0, "alpha".data, [], [], [], 0, 0, 0⟩

def blockB : AbstractBlock := ⟨[], 1, 2, 0, 0, "beta".data, [], [], [], 0, 0, 0⟩

theorem best_matching_block_first_max_witness :
    ∃ b, best_matching_block [blockA, blockB] [] [] = some b ∧
      (∀ x ∈ [blockA, blockB].map (scoreBlock [] []), x.match_score ≤ b.match_score) ∧
      ∃ pre suf, [blockA, blockB].map (scoreBlock [] []) = pre ++ b :: suf ∧
        (∀ x ∈ pre, x.match_score < b.match_score) ∧
        (∀ x ∈ suf, x.match_score ≤ b.match_score) :=
  best_matching_block_first_max [blockA, blockB] [] [] (by decide)

/-! ### Claim C5: the title-score formula -/

theorem token_set_of_normalized (s : List Char) (n : Nat) :
    token_set (normalize_text s) n =
      ((words (normalize_text s)).filter (fun w => n ≤ w.length)).toFinset := by
  unfold token_set
  rw [normalize_text_idempotent]

/-- The token-overlap factor of the amended claim: distinct shared words of
length ≥ 4 of the two normalized strings, divided by the number of distinct
length-≥ 4 words of the normalized reference (at least 1), floored at 0.95
when one normalized string contains the other. -/
def amendedOverlap (ref_norm block_norm : List Char) : ℚ :=
  let refT := ((words ref_norm).filter (fun w => 4 ≤ w.length)).toFinset
  let blkT := ((words block_norm).filter (fun w => 4 ≤ w.length)).toFinset
  let o := ((refT ∩ blkT).card : ℚ) / ((max 1 refT.card : Nat) : ℚ)
  if containsSub ref_norm block_norm || containsSub block_norm ref_norm then
    max o (95 / 100)
  else o

/-- The claim's formula verbatim: the overlap ratio is "the number of
shared words of length >= 4 divided by the reference word count" — the
word count of the normalized reference title. -/
def claimScoreTitle (reference_title block_title : List Char) : ℚ :=
  let ref_norm := normalize_text reference_title
  let block_norm := normalize_text block_title
  if ref_norm.isEmpty || block_norm.isEmpty then 0
  else if ref_norm = block_norm then 1
  else
    let sequence := sequenceRatio ref_norm block_norm
    let o0 : ℚ := ((token_set ref_norm 4 ∩ token_set block_norm 4).card : ℚ) /
      ((words ref_norm).length : ℚ)
    let overlap := if containsSub ref_norm block_norm || containsSub block_norm ref_norm then
      max o0 (95 / 100)
    else o0
    max sequence (65 / 100 * sequence + 35 / 100 * overlap)

set_option maxRecDepth 20000 in
unseal Rat.add Rat.mul Rat.inv in
/-- **C5, counterexample.**  The code divides the overlap by the number of
distinct reference words of length ≥ 4 (`max(1, len(ref_tokens))`), not by
the reference word count: for reference "a wxyz" (two words, one of length
≥ 4) and block "wxyz", the normalizations are non-empty and unequal, the
code scores 0.87 (overlap 1/1, floored at 0.95 but already 1), while the
claim's formula gives 0.8525 (overlap 1/2 floored to 0.95). -/
theorem score_title_denominator_cex :
    normalize_text ("a wxyz".data) ≠ [] ∧
    normalize_text ("wxyz".data) ≠ [] ∧
    normalize_text ("a wxyz".data) ≠ normalize_text ("wxyz".data) ∧
    score_title ("a wxyz".data) ("wxyz".data) = 87 / 100 ∧
    claimScoreTitle ("a wxyz".data) ("wxyz".data) = 341 / 400 ∧
    score_title ("a wxyz".data) ("wxyz".data) ≠
      claimScoreTitle ("a wxyz".data) ("wxyz".data) := by
  decide

/-- **C5 (amended).**  `score_title` always lies in `[0,1]`; equal
non-empty normalizations score exactly 1; and on non-empty, unequal
normalizations it equals
`max(sequence_ratio, 0.65*sequence_ratio + 0.35*overlap_ratio)` where the
overlap ratio is the number of shared distinct words of length ≥ 4 divided
by the number of distinct reference words of length ≥ 4 (at least 1),
floored at 0.95 whenever one normalized string contains the other. -/
theorem score_title_spec (reference_title block_title : List Char) :
    0 ≤ score_title reference_title block_title ∧
    score_title reference_title block_title ≤ 1 ∧
    (normalize_text reference_title = normalize_text block_title →
      normalize_text reference_title ≠ [] →
      score_title reference_title block_title = 1) ∧
    (normalize_text reference_title ≠ [] → normalize_text block_title ≠ [] →
      normalize_text reference_title ≠ normalize_text block_title →
      score_title reference_title block_title =
        max (sequenceRatio (normalize_text reference_title) (normalize_text block_title))
          (65 / 100 * sequenceRatio (normalize_text reference_title)
              (normalize_text block_title) +
            35 / 100 * amendedOverlap (normalize_text reference_title)
              (normalize_text block_title))) := by
  refine ⟨(score_title_bounds reference_title block_title).1,
    (score_title_bounds reference_title block_title).2, ?_, ?_⟩
  · intro heq hne
    have hbe : normalize_text block_title ≠ [] := heq ▸ hne
    have hguard : ((normalize_text reference_title).isEmpty ||
        (normalize_text block_title).isEmpty) = false := by
      simp [List.isEmpty_iff, hne, hbe]
    simp only [score_title, hguard, Bool.false_eq_true, if_false, if_pos heq]
  · intro hr hb hneq
    have hguard : ((normalize_text reference_title).isEmpty ||
        (normalize_text block_title).isEmpty) = false := by
      simp [List.isEmpty_iff, hr, hb]
    simp only [score_title, hguard, Bool.false_eq_true, if_false, if_neg hneq,
      amendedOverlap, token_set_of_normalized]

/-! ### Trimmed artifact builder, decision rows, and the per-document driver

File-system effects are modelled by values: the trimmed artifact is the
`Option TrimmedRecord` component of `process_record`'s result (`none` both
when nothing is written and when a stale artifact is deleted), and the
output path is carried as data.  CSV stringification is abstracted at the
data level: a decision-row field that Python renders as `""` when no block
was selected is an `Option` that is `none` (when a block is present the
rendered text — a 2–3 digit code, a non-empty title, `f"{score:.4f}"`,
`str(page_index)` — is never empty).  `now_utc_iso()` is modelled as an
input `now`, since the engine only embeds it. -/

/-- One page of a trimmed artifact. -/
structure TrimPage where
  page_index : Int
  text : List Char
deriving DecidableEq

def insertSorted (x : Int) : List Int → List Int
  | [] => [x]
  | y :: ys => if x ≤ y then x :: y :: ys else y :: insertSorted x ys

/-- `sorted(...)` over integer keys. -/
def sortInts (l : List Int) : List Int :=
  l.foldr insertSorted []

/-- `trim_pages_from_block` of the source: group the block's non-footer
lines by page index (output ordered by page index, as
`sorted(grouped.items())` does), join with newlines, strip, and drop pages
whose text is empty. -/
def trim_pages_from_block (block : AbstractBlock) : List TrimPage :=
  let kept := block.line_refs.filter (fun l => !is_footer_like l.text)
  let keys := sortInts ((kept.map (fun l => l.page_index)).dedup)
  keys.filterMap (fun pidx =>
    let ls := (kept.filter (fun l => decide (l.page_index = pidx))).map (fun l => l.text)
    let txt := stripWS (joinSep '\n' ls)
    if txt.isEmpty then none else some ⟨pidx, txt⟩)

/-- A row of the reference CSV (an absent row has all fields empty, as
`reference_rows.get(paper_id, {})` then `row.get(...) or ""` yields). -/
structure ReferenceRow where
  covidence : List Char
  title : List Char
  authors : List Char
deriving DecidableEq

/-- `round(x, 4)` (Python rounds the closest double; exact rational
half-up rounding stands in for it — no claim depends on the tie behavior). -/
def roundQ4 (x : ℚ) : ℚ :=
  ((⌊x * 10000 + 1 / 2⌋ : ℤ) : ℚ) / 10000

def statusNotNeeded : List Char := "not_needed".data

def statusManualReview : List Char := "manual_review_required".data

def statusTrimmedAuto : List Char := "trimmed_auto".data

def methodFuzzy : List Char := "fuzzy_title_author_block_match".data

def reasonNotNeeded : List Char :=
  "Document does not look like a large proceedings/program PDF.".data

def reasonNoBlock : List Char :=
  "No abstract block could be segmented from the proceedings text.".data

def reasonLowConfidence : List Char :=
  "Proceedings detected, but the best abstract block match is below the auto-trim confidence threshold.".data

def reasonTrimmed : List Char :=
  "Proceedings detected and the target abstract block matched with sufficient confidence.".data

/-- The trimmed artifact record `build_trimmed_record` writes. -/
structure TrimmedRecord where
  paper_id : List Char
  source_filename : List Char
  source_sha256 : List Char
  source_text_json_path : List Char
  trim_status : List Char
  trim_method : List Char
  proceedings_detected : Bool
  title : List Char
  authors : List Char
  matched_block_code : List Char
  matched_block_title : List Char
  match_score : ℚ
  title_score : ℚ
  author_score : ℚ
  start_page_index : Int
  end_page_index : Int
  original_n_pages : Int
  n_pages : Nat
  page_char_counts : List Nat
  trimmed_at_utc : List Char
  pages : List TrimPage
deriving DecidableEq

/-- `build_trimmed_record` of the source. -/
def build_trimmed_record (record : Record) (srcPath stem : List Char)
    (block : AbstractBlock) (refRow : ReferenceRow) (now : List Char) : TrimmedRecord :=
  let pages := trim_pages_from_block block
  { paper_id := if record.paper_id.isEmpty then stem else record.paper_id
    source_filename := record.source_filename
    source_sha256 := record.source_sha256
    source_text_json_path := srcPath
    trim_status := statusTrimmedAuto
    trim_method := methodFuzzy
    proceedings_detected := true
    title := stripWS refRow.title
    authors := stripWS refRow.authors
    matched_block_code := block.code
    matched_block_title := block.title_text
    match_score := roundQ4 block.match_score
    title_score := roundQ4 block.title_score
    author_score := roundQ4 block.author_score
    start_page_index := block.start_page_index
    end_page_index := block.end_page_index
    original_n_pages := record.n_pages
    n_pages := pages.length
    page_char_counts := pages.map (fun p => p.text.length)
    trimmed_at_utc := now
    pages := pages }

/-- The per-document audit row `decision_row` writes to the registry CSV. -/
structure DecisionRow where
  paper_id : List Char
  covidence_id : List Char
  title : List Char
  authors : List Char
  source_filename : List Char
  source_text_json_path : List Char
  trimmed_text_json_path : Option (List Char)
  n_pages : Int
  abstract_block_count : Nat
  title_like_line_count : Nat
  author_like_line_count : Nat
  program_marker_count : Nat
  proceedings_detected : Bool
  trim_status : List Char
  trim_reason : List Char
  trim_method : List Char
  matched_block_code : Option (List Char)
  matched_block_title : Option (List Char)
  title_score : Option ℚ
  author_score : Option ℚ
  match_score : Option ℚ
  start_page_index : Option Int
  end_page_index : Option Int
  trimmed_at_utc : List Char
deriving DecidableEq

/-- `decision_row` of the source. -/
def decision_row (paper_id : List Char) (refRow : ReferenceRow) (record : Record)
    (srcPath : List Char) (trimmedPath : Option (List Char)) (signals : Signals)
    (trim_status trim_reason : List Char) (block : Option AbstractBlock)
    (now : List Char) : DecisionRow :=
  { paper_id := paper_id
    covidence_id := stripWS (if refRow.covidence.isEmpty then paper_id else refRow.covidence)
    title := stripWS refRow.title
    authors := stripWS refRow.authors
    source_filename := record.source_filename
    source_text_json_path := srcPath
    trimmed_text_json_path := trimmedPath
    n_pages := signals.n_pages
    abstract_block_count := signals.abstract_block_count
    title_like_line_count := signals.title_like_line_count
    author_like_line_count := signals.author_like_line_count
    program_marker_count := signals.program_marker_count
    proceedings_detected := signals.proceedings_detected
    trim_status := trim_status
    trim_reason := trim_reason
    trim_method := if trim_status = statusTrimmedAuto then methodFuzzy else []
    matched_block_code := block.map (fun b => b.code)
    matched_block_title := block.map (fun b => b.title_text)
    title_score := block.map (fun b => b.title_score)
    author_score := block.map (fun b => b.author_score)
    match_score := block.map (fun b => b.match_score)
    start_page_index := block.map (fun b => b.start_page_index)
    end_page_index := block.map (fun b => b.end_page_index)
    trimmed_at_utc := if trim_status = statusTrimmedAuto then now else [] }

/-- `process_record` of the source: one document through detection,
segmentation, scoring and the confidence gate.  Result: the decision row
and the trimmed artifact (or its absence — the source also unlinks any
stale artifact on the non-trimming branches). -/
def process_record (record : Record) (refRow : ReferenceRow)
    (srcPath stem outputDir now : List Char) : DecisionRow × Option TrimmedRecord :=
  let paper_id := if record.paper_id.isEmpty then stem else record.paper_id
  let lines := flatten_lines record
  let signals := proceedings_signals record lines
  let trimmedPath := outputDir ++ '/' :: (paper_id ++ (".json").data)
  if signals.proceedings_detected = false then
    (decision_row paper_id refRow record srcPath none signals statusNotNeeded
      reasonNotNeeded none now, none)
  else
    let blocks := extract_blocks lines
    match best_matching_block blocks (stripWS refRow.title) (stripWS refRow.authors) with
    | none =>
        (decision_row paper_id refRow record srcPath none signals statusManualReview
          reasonNoBlock none now, none)
    | some block =>
        if 70 / 100 ≤ block.title_score ∨
            (55 / 100 ≤ block.title_score ∧ 25 / 100 ≤ block.author_score ∧
              60 / 100 ≤ block.match_score) then
          (decision_row paper_id refRow record srcPath (some trimmedPath) signals
            statusTrimmedAuto reasonTrimmed (some block) now,
           some (build_trimmed_record record srcPath stem block refRow now))
        else
          (decision_row paper_id refRow record srcPath none signals statusManualReview
            reasonLowConfidence (some block) now, none)

/-! ### Claim C3: an exact title match forces `trimmed_auto` -/

theorem best_matching_block_mem (blocks : List AbstractBlock)
    (reference_title reference_authors : List Char) (b : AbstractBlock)
    (h : best_matching_block blocks reference_title reference_authors = some b) :
    ∃ x ∈ blocks, b = scoreBlock reference_title reference_authors x := by
  unfold best_matching_block at h
  cases hmap : blocks.map (scoreBlock reference_title reference_authors) with
  | nil => rw [hmap] at h; cases h
  | cons b0 rest =>
      rw [hmap] at h
      have hb : bestAux b0 rest = b := by
        simpa using h
      have hmem : b ∈ b0 :: rest := hb ▸ bestAux_mem rest b0
      rw [← hmap] at hmem
      obtain ⟨x, hx, hxb⟩ := List.mem_map.mp hmem
      exact ⟨x, hx, hxb.symm⟩

theorem best_matching_block_eq_none_iff (blocks : List AbstractBlock)
    (reference_title reference_authors : List Char) :
    best_matching_block blocks reference_title reference_authors = none ↔ blocks = [] := by
  cases blocks with
  | nil => simp [best_matching_block]
  | cons b bs => simp [best_matching_block]

/-- **C3.**  If the detector fired, and some segmented block's title scores
exactly 1 against the (stripped) reference title, then the document's
terminal outcome is `trimmed_auto`: the selected best block, whichever
block it is, always passes the confidence gate. -/
theorem title_exact_match_trims (record : Record) (refRow : ReferenceRow)
    (srcPath stem outputDir now : List Char) (b : AbstractBlock)
    (hdet : (proceedings_signals record (flatten_lines record)).proceedings_detected = true)
    (hb : b ∈ extract_blocks (flatten_lines record))
    (hscore : score_title (stripWS refRow.title) b.title_text = 1) :
    (process_record record refRow srcPath stem outputDir now).1.trim_status =
      statusTrimmedAuto := by
  obtain ⟨best, hbm, hge, pre, suf, hsplit, _, _⟩ :=
    best_matching_block_first_max (extract_blocks (flatten_lines record))
      (stripWS refRow.title) (stripWS refRow.authors) (List.ne_nil_of_mem hb)
  simp only [process_record]
  rw [if_neg (by simp [hdet])]
  split
  · rename_i heq
    rw [heq] at hbm
    cases hbm
  · rename_i block heq
    rw [heq] at hbm
    have hbb : block = best := by injection hbm
    subst hbb
    split
    · rfl
    · rename_i hgate
      exfalso
      apply hgate
      have hmemb : block ∈ (extract_blocks (flatten_lines record)).map
          (scoreBlock (stripWS refRow.title) (stripWS refRow.authors)) := by
        rw [hsplit]
        exact List.mem_append.mpr (Or.inr (List.mem_cons_self _ _))
      obtain ⟨x, _, hx⟩ := List.mem_map.mp hmemb
      have ht1 : block.title_score ≤ 1 := by
        rw [← hx]
        exact (score_title_bounds _ _).2
      have hs0 : 0 ≤ block.author_score := by
        rw [← hx]
        exact (score_authors_bounds _ _).1
      have hs1 : block.author_score ≤ 1 := by
        rw [← hx]
        exact (score_authors_bounds _ _).2
      have hmatch : block.match_score =
          75 / 100 * block.title_score + 25 / 100 * block.author_score := by
        rw [← hx]
        rfl
      have hbmem : scoreBlock (stripWS refRow.title) (stripWS refRow.authors) b ∈
          (extract_blocks (flatten_lines record)).map
            (scoreBlock (stripWS refRow.title) (stripWS refRow.authors)) :=
        List.mem_map_of_mem _ hb
      have hble := hge _ hbmem
      have hbscore : (scoreBlock (stripWS refRow.title) (stripWS refRow.authors) b).match_score =
          75 / 100 * score_title (stripWS refRow.title) b.title_text +
            25 / 100 * score_authors (stripWS refRow.authors) b.preview_text := rfl
      have hsa0 : 0 ≤ score_authors (stripWS refRow.authors) b.preview_text :=
        (score_authors_bounds _ _).1
      have hm75 : 75 / 100 ≤ block.match_score := by
        rw [hbscore, hscore] at hble
        linarith
      by_cases h7 : 70 / 100 ≤ block.title_score
      · exact Or.inl h7
      · refine Or.inr ⟨by linarith, by linarith, by linarith⟩

/-- A 40-page record (filename carries a program marker) with one abstract
block whose title exactly matches the reference title. -/
def recProc : Record :=
  ⟨"p7".data, "annual meeting.pdf".data, [], 40,
    [⟨0, "12. Stiff person syndrome".data⟩]⟩

def refProc : ReferenceRow := ⟨"555".data, "Stiff person syndrome".data, []⟩

def defBlockC3 : AbstractBlock := ⟨[], 0, 0, 0, 0, [], [], [], [], 0, 0, 0⟩

theorem title_exact_match_trims_witness :
    (process_record recProc refProc [] [] [] []).1.trim_status = statusTrimmedAuto :=
  title_exact_match_trims recProc refProc [] [] [] []
    ((extract_blocks (flatten_lines recProc)).headD defBlockC3)
    (by decide) (by decide) (by decide)

/-! ### Claim C10: decision-row field invariants -/

/-- **C10.**  In every decision row `process_record` produces: the trimmed
artifact path is present iff the status is `trimmed_auto`; `trim_method`
is `fuzzy_title_author_block_match` exactly for `trimmed_auto` rows and
empty otherwise; and the matched-block fields (code, title, the three
scores, the page span) are all absent exactly when no candidate block was
selected — status `not_needed`, or `manual_review_required` with zero
segmented blocks. -/
theorem decision_row_field_invariants (record : Record) (refRow : ReferenceRow)
    (srcPath stem outputDir now : List Char) :
    ((process_record record refRow srcPath stem outputDir now).1.trimmed_text_json_path ≠ none ↔
      (process_record record refRow srcPath stem outputDir now).1.trim_status =
        statusTrimmedAuto) ∧
    ((process_record record refRow srcPath stem outputDir now).1.trim_method = methodFuzzy ↔
      (process_record record refRow srcPath stem outputDir now).1.trim_status =
        statusTrimmedAuto) ∧
    ((process_record record refRow srcPath stem outputDir now).1.trim_status ≠
        statusTrimmedAuto →
      (process_record record refRow srcPath stem outputDir now).1.trim_method = []) ∧
    (((process_record record refRow srcPath stem outputDir now).1.matched_block_code = none ∧
      (process_record record refRow srcPath stem outputDir now).1.matched_block_title = none ∧
      (process_record record refRow srcPath stem outputDir now).1.title_score = none ∧
      (process_record record refRow srcPath stem outputDir now).1.author_score = none ∧
      (process_record record refRow srcPath stem outputDir now).1.match_score = none ∧
      (process_record record refRow srcPath stem outputDir now).1.start_page_index = none ∧
      (process_record record refRow srcPath stem outputDir now).1.end_page_index = none) ↔
      ((process_record record refRow srcPath stem outputDir now).1.trim_status =
          statusNotNeeded ∨
        ((process_record record refRow srcPath stem outputDir now).1.trim_status =
            statusManualReview ∧
          extract_blocks (flatten_lines record) = []))) := by
  simp only [process_record]
  by_cases hdet : (proceedings_signals record (flatten_lines record)).proceedings_detected = false
  · rw [if_pos hdet]
    refine ⟨?_, ?_, ?_, ?_⟩ <;> simp only [decision_row]
    · decide
    · decide
    · decide
    · simp
  · rw [if_neg hdet]
    split
    · rename_i heq
      have hblocks := (best_matching_block_eq_none_iff _ _ _).mp heq
      refine ⟨?_, ?_, ?_, ?_⟩ <;> simp only [decision_row]
      · decide
      · decide
      · decide
      · simp only [Option.map_none']
        constructor
        · intro _
          exact Or.inr ⟨trivial, hblocks⟩
        · intro _
          simp
    · rename_i block heq
      have hblocks : extract_blocks (flatten_lines record) ≠ [] := by
        intro hnil
        rw [(best_matching_block_eq_none_iff _ _ _).mpr hnil] at heq
        cases heq
      split
      · refine ⟨?_, ?_, ?_, ?_⟩ <;> simp only [decision_row]
        · simp
        · decide
        · decide
        · simp only [Option.map_some']
          constructor
          · rintro ⟨h, -⟩
            cases h
          · rintro (h | ⟨h, -⟩)
            · exact absurd h (by decide)
            · exact absurd h (by decide)
      · refine ⟨?_, ?_, ?_, ?_⟩ <;> simp only [decision_row]
        · decide
        · decide
        · decide
        · simp only [Option.map_some']
          constructor
          · rintro ⟨h, -⟩
            cases h
          · rintro (h | ⟨-, h⟩)
            · exact absurd h (by decide)
            · exact absurd h hblocks

/-! ### Claim C1: determinism of the outputs -/

/-- A decision row with its wall-clock field blanked. -/
def rowEraseTime (row : DecisionRow) : DecisionRow :=
  { row with trimmed_at_utc := [] }

/-- A trimmed artifact with its wall-clock field blanked. -/
def trimmedEraseTime (t : TrimmedRecord) : TrimmedRecord :=
  { t with trimmed_at_utc := [] }

set_option maxRecDepth 20000 in
unseal Rat.add Rat.mul Rat.inv in
/-- **C1, counterexample.**  Both the decision row and the trimmed artifact
embed `now_utc_iso()`: two runs on the same document and reference that
read different clock values produce different `trimmed_at_utc` fields, so
the outputs are not byte-for-byte functions of the document and reference
alone. -/
theorem process_record_not_time_invariant_cex :
    (process_record recProc refProc [] [] [] ("t1").data).1 ≠
      (process_record recProc refProc [] [] [] ("t2").data).1 ∧
    (process_record recProc refProc [] [] [] ("t1").data).2 ≠
      (process_record recProc refProc [] [] [] ("t2").data).2 := by
  constructor
  · intro h
    have := congrArg DecisionRow.trimmed_at_utc h
    simp [process_record, decision_row] at this
    exact absurd this (by decide)
  · intro h
    have := congrArg (Option.map TrimmedRecord.trimmed_at_utc) h
    simp [process_record, build_trimmed_record] at this
    exact absurd this (by decide)

/-- **C1 (amended).**  Apart from the `trimmed_at_utc` fields, which record
the wall-clock time of the run, every field of the decision row and of the
trimmed artifact (or its absence) is a deterministic function of the
document record, the reference row and the path inputs alone: two runs
that differ only in the clock value agree after blanking those fields. -/
theorem process_record_deterministic_modulo_time (record : Record) (refRow : ReferenceRow)
    (srcPath stem outputDir now1 now2 : List Char) :
    rowEraseTime (process_record record refRow srcPath stem outputDir now1).1 =
      rowEraseTime (process_record record refRow srcPath stem outputDir now2).1 ∧
    Option.map trimmedEraseTime (process_record record refRow srcPath stem outputDir now1).2 =
      Option.map trimmedEraseTime (process_record record refRow srcPath stem outputDir now2).2 := by
  simp only [process_record]
  by_cases hdet : (proceedings_signals record (flatten_lines record)).proceedings_detected = false
  · rw [if_pos hdet, if_pos hdet]
    exact ⟨rfl, rfl⟩
  · rw [if_neg hdet, if_neg hdet]
    cases heq : best_matching_block (extract_blocks (flatten_lines record))
        (stripWS refRow.title) (stripWS refRow.authors) with
    | none => exact ⟨rfl, rfl⟩
    | some block =>
        dsimp only
        by_cases hgate : 70 / 100 ≤ block.title_score ∨
            (55 / 100 ≤ block.title_score ∧ 25 / 100 ≤ block.author_score ∧
              60 / 100 ≤ block.match_score)
        · rw [if_pos hgate, if_pos hgate]
          exact ⟨rfl, rfl⟩
        · rw [if_neg hgate, if_neg hgate]
          exact ⟨rfl, rfl⟩

/-! ### Claim C7: error handling of the batch driver

`main` builds `rows = [process_record(path, ...) for path in ...]` with no
`try`/`except`: an exception raised while loading or processing one record
(e.g. `int(record.get("n_pages"))` on a non-numeric value, or invalid
JSON) propagates out of the comprehension, so no row of the batch — not
even for the well-formed documents — is produced or written.  The model
carries the per-document fallibility as `Except` inputs and the
comprehension as `mapM`, which is exactly fail-fast. -/

/-- One document through the driver: a record that failed to load carries
its error; a loaded one is processed. -/
def process_record_result (refRow : ReferenceRow) (srcPath stem outputDir now : List Char)
    (input : Except (List Char) Record) : Except (List Char) DecisionRow :=
  input.map (fun record => (process_record record refRow srcPath stem outputDir now).1)

/-- The batch driver's row list (the list comprehension of `main`): the
first per-document exception aborts the whole batch. -/
def batch_rows (inputs : List (Except (List Char) Record)) (refRow : ReferenceRow)
    (srcPath stem outputDir now : List Char) : Except (List Char) (List DecisionRow) :=
  inputs.mapM (process_record_result refRow srcPath stem outputDir now)

/-- A well-formed record the driver can process. -/
def recGood : Record := ⟨"good".data, [], [], 0, []⟩

def refEmptyRow : ReferenceRow := ⟨[], [], []⟩

/-- **C7.**  The batch driver does not catch per-document errors: a batch
whose first document fails to load yields no decision rows at all — the
error propagates and the remaining well-formed document (which alone would
produce exactly one row) is never processed.  This contradicts the claim
(and §7 of the spec), which require the failure to be recorded and the
rest of the batch to continue. -/
theorem batch_halts_on_first_error :
    batch_rows [Except.error ("ValueError".data), Except.ok recGood]
        refEmptyRow [] [] [] [] =
      Except.error ("ValueError".data) ∧
    batch_rows [Except.ok recGood] refEmptyRow [] [] [] [] =
      Except.ok [(process_record recGood refEmptyRow [] [] [] []).1] := by
  exact ⟨rfl, rfl⟩

/-! ### Claim C8: containment of trimmed pages in the source -/

theorem mem_insertSorted (a x : Int) :
    ∀ l : List Int, a ∈ insertSorted x l ↔ a = x ∨ a ∈ l := by
  intro l
  induction l with
  | nil => simp [insertSorted]
  | cons y ys ih =>
      simp only [insertSorted]
      split
      · simp
      · simp only [List.mem_cons, ih]
        tauto

theorem mem_sortInts (a : Int) : ∀ l : List Int, a ∈ sortInts l ↔ a ∈ l := by
  intro l
  induction l with
  | nil => simp [sortInts]
  | cons x xs ih =>
      show a ∈ insertSorted x (sortInts xs) ↔ _
      rw [mem_insertSorted, ih]
      simp

theorem head?_mem {α : Type} {l : List α} {a : α} (h : l.head? = some a) : a ∈ l := by
  cases l with
  | nil => cases h
  | cons b t =>
      simp only [List.head?_cons, Option.some.injEq] at h
      simp [← h]

theorem getLast?_mem {α : Type} {l : List α} {a : α} (h : l.getLast? = some a) : a ∈ l := by
  rw [← List.head?_reverse] at h
  exact List.mem_reverse.mp (head?_mem h)

theorem splitOnNl_cons (c : Char) (cs : List Char) :
    splitOnNl (c :: cs) = match splitOnNl cs with
      | [] => [[c]]
      | a :: as => if c = '\n' then [] :: a :: as else (c :: a) :: as := rfl

theorem splitOnNl_ne_nil : ∀ s : List Char, splitOnNl s ≠ [] := by
  intro s
  induction s with
  | nil => simp [splitOnNl]
  | cons c cs ih =>
      rw [splitOnNl_cons]
      cases h : splitOnNl cs with
      | nil => simp
      | cons a as =>
          by_cases hc : c = '\n'
          · simp [hc]
          · simp [hc]

theorem splitOnNl_nlfree (w : List Char) (h : ∀ c ∈ w, c ≠ '\n') : splitOnNl w = [w] := by
  induction w with
  | nil => rfl
  | cons c cs ih =>
      rw [splitOnNl_cons, ih (fun d hd => h d (by simp [hd]))]
      simp [h c (by simp)]

theorem splitOnNl_append (w : List Char) (h : ∀ c ∈ w, c ≠ '\n') :
    ∀ s, splitOnNl (w ++ s) = (w ++ (splitOnNl s).headD []) :: (splitOnNl s).tail := by
  induction w with
  | nil =>
      intro s
      cases hs : splitOnNl s with
      | nil => exact absurd hs (splitOnNl_ne_nil s)
      | cons a as => simp [hs]
  | cons c cs ih =>
      intro s
      have hcons : splitOnNl (c :: (cs ++ s)) = match splitOnNl (cs ++ s) with
        | [] => [[c]]
        | a :: as => if c = '\n' then [] :: a :: as else (c :: a) :: as := rfl
      show splitOnNl (c :: (cs ++ s)) = _
      rw [hcons, ih (fun d hd => h d (by simp [hd])) s]
      simp [h c (by simp)]

theorem splitOnNl_joinNl (ls : List (List Char)) (hne : ls ≠ [])
    (h : ∀ l ∈ ls, ∀ c ∈ l, c ≠ '\n') : splitOnNl (joinSep '\n' ls) = ls := by
  induction ls with
  | nil => exact absurd rfl hne
  | cons w ws ih =>
      cases ws with
      | nil =>
          show splitOnNl w = [w]
          exact splitOnNl_nlfree w (h w (by simp))
      | cons x ws' =>
          show splitOnNl (w ++ '\n' :: joinSep '\n' (x :: ws')) = w :: x :: ws'
          rw [splitOnNl_append w (h w (by simp))]
          have hstep : splitOnNl ('\n' :: joinSep '\n' (x :: ws')) =
              match splitOnNl (joinSep '\n' (x :: ws')) with
              | [] => [['\n']]
              | a :: as => if '\n' = '\n' then [] :: a :: as else ('\n' :: a) :: as := rfl
          cases hJ : splitOnNl (joinSep '\n' (x :: ws')) with
          | nil => exact absurd hJ (splitOnNl_ne_nil _)
          | cons a as =>
              rw [hstep, hJ]
              have hIH : splitOnNl (joinSep '\n' (x :: ws')) = x :: ws' :=
                ih (by simp) (fun l hl => h l (by simp [hl]))
              rw [hJ] at hIH
              simp [hIH]

theorem joinSep_ne_nil (sep : Char) (ls : List (List Char)) (hne : ls ≠ [])
    (hl : ∀ l ∈ ls, l ≠ []) : joinSep sep ls ≠ [] := by
  cases ls with
  | nil => exact absurd rfl hne
  | cons w ws =>
      cases ws with
      | nil => exact hl w (by simp)
      | cons x ws' =>
          show w ++ sep :: joinSep sep (x :: ws') ≠ []
          simp

theorem joinSep_head_nonspace (sep : Char) (ls : List (List Char))
    (hl : ∀ l ∈ ls, l ≠ []) (hh : ∀ l ∈ ls, ∀ c, l.head? = some c → isSpaceChar c = false) :
    ∀ c, (joinSep sep ls).head? = some c → isSpaceChar c = false := by
  cases ls with
  | nil => intro c hc; cases hc
  | cons w ws =>
      cases ws with
      | nil => exact hh w (by simp)
      | cons x ws' =>
          intro c hc
          cases hw : w with
          | nil => exact absurd hw (hl w (by simp))
          | cons a t =>
              rw [hw] at hc
              have hdef : joinSep sep ((a :: t) :: x :: ws') =
                  a :: (t ++ sep :: joinSep sep (x :: ws')) := rfl
              rw [hdef] at hc
              simp only [List.head?_cons, Option.some.injEq] at hc
              subst hc
              exact hh w (by simp) a (by rw [hw]; rfl)

theorem joinSep_getLast_nonspace (sep : Char) :
    ∀ ls : List (List Char), (∀ l ∈ ls, l ≠ []) →
      (∀ l ∈ ls, ∀ c, l.getLast? = some c → isSpaceChar c = false) →
      ∀ c, (joinSep sep ls).getLast? = some c → isSpaceChar c = false := by
  intro ls
  induction ls with
  | nil => intro _ _ c hc; cases hc
  | cons w ws ih =>
      intro hl hh c hc
      cases ws with
      | nil => exact hh w (by simp) c hc
      | cons x ws' =>
          have hJne : joinSep sep (x :: ws') ≠ [] :=
            joinSep_ne_nil sep _ (by simp) (fun l hl' => hl l (by simp [hl']))
          have hshow : joinSep sep (w :: x :: ws') = w ++ sep :: joinSep sep (x :: ws') := rfl
          rw [hshow, List.getLast?_append] at hc
          cases hJ : joinSep sep (x :: ws') with
          | nil => exact absurd hJ hJne
          | cons j js =>
              rw [hJ, List.getLast?_cons_cons] at hc
              cases hjl : (j :: js).getLast? with
              | none =>
                  have hns : (j :: js : List Char) ≠ [] := by simp
                  have hsome := List.getLast?_isSome.mpr hns
                  rw [hjl] at hsome
                  cases hsome
              | some y =>
                  rw [hjl] at hc
                  have hyc : y = c := by
                    simpa [Option.or] using hc
                  refine ih (fun l hl' => hl l (by simp [hl']))
                    (fun l hl' => hh l (by simp [hl'])) c ?_
                  rw [hJ, hjl, hyc]

theorem stripWS_eq_self (s : List Char)
    (h1 : ∀ c, s.head? = some c → isSpaceChar c = false)
    (h2 : ∀ c, s.getLast? = some c → isSpaceChar c = false) :
    stripWS s = s := by
  unfold stripWS
  have hd : s.dropWhile isSpaceChar = s := by
    cases s with
    | nil => rfl
    | cons a l =>
        have ha := h1 a rfl
        simp [List.dropWhile_cons, ha]
  rw [hd]
  have hr : s.reverse.dropWhile isSpaceChar = s.reverse := by
    cases hsrev : s.reverse with
    | nil => rfl
    | cons a l =>
        have hh : s.getLast? = some a := by
          rw [← List.head?_reverse, hsrev]
          rfl
        have ha := h2 a hh
        simp [List.dropWhile_cons, ha]
  rw [hr, List.reverse_reverse]

theorem flatten_lines_shape (record : Record) :
    ∀ lr ∈ flatten_lines record,
      lr.page_index ∈ record.pages.map Page.page_index ∧
      lr.text ≠ [] ∧
      (∀ c ∈ lr.text, c ≠ '\n') ∧
      (∀ c, lr.text.head? = some c → isSpaceChar c = false) ∧
      (∀ c, lr.text.getLast? = some c → isSpaceChar c = false) := by
  intro lr hlr
  unfold flatten_lines at hlr
  rw [List.mem_flatten] at hlr
  obtain ⟨inner, hinner, hlrin⟩ := hlr
  obtain ⟨page, hpage, hpeq⟩ := List.mem_map.mp hinner
  rw [← hpeq] at hlrin
  obtain ⟨pair, hpair, hpf⟩ := List.mem_filterMap.mp hlrin
  simp only at hpf
  by_cases hemp : (collapseWS pair.2).isEmpty
  · rw [if_pos hemp] at hpf
    cases hpf
  · rw [if_neg hemp] at hpf
    injection hpf with hlr'
    subst hlr'
    have hws := words_spaceFree pair.2
    have hnonempty : collapseWS pair.2 ≠ [] := by
      simpa [List.isEmpty_iff] using hemp
    refine ⟨List.mem_map_of_mem _ hpage, hnonempty, ?_, ?_, ?_⟩
    · intro c hc heq
      rcases mem_joinSep ' ' (words pair.2) c hc with h | h
      · rw [heq] at h
        cases h
      · obtain ⟨w, hw, hcw⟩ := h
        have := (hws w hw).2 c hcw
        rw [heq] at this
        exact absurd this (by decide)
    · exact joinSep_head_nonspace ' ' (words pair.2)
        (fun w hw => (hws w hw).1)
        (fun w hw c hc => (hws w hw).2 c (head?_mem hc))
    · exact joinSep_getLast_nonspace ' ' (words pair.2)
        (fun w hw => (hws w hw).1)
        (fun w hw c hc => (hws w hw).2 c (getLast?_mem hc))

theorem extractBlocksAux_line_refs (lines : List LineRef) :
    ∀ S, ∀ b ∈ extractBlocksAux lines S, ∀ lr ∈ b.line_refs, lr ∈ lines := by
  intro S
  induction S with
  | nil => intro b hb; simp [extractBlocksAux] at hb
  | cons i rest ih =>
      intro b hb lr hlr
      simp only [extractBlocksAux] at hb
      split at hb
      · exact ih b hb lr hlr
      · rcases List.mem_cons.mp hb with h | h
        · subst h
          exact List.mem_of_mem_drop (List.mem_of_mem_take hlr)
        · exact ih b h lr hlr

theorem extract_blocks_line_refs (lines : List LineRef) :
    ∀ b ∈ extract_blocks lines, ∀ lr ∈ b.line_refs, lr ∈ lines :=
  extractBlocksAux_line_refs lines (startIdxs lines)

theorem trim_pages_from_block_spec (block : AbstractBlock)
    (hshape : ∀ lr ∈ block.line_refs,
      lr.text ≠ [] ∧ (∀ c ∈ lr.text, c ≠ '\n') ∧
      (∀ c, lr.text.head? = some c → isSpaceChar c = false) ∧
      (∀ c, lr.text.getLast? = some c → isSpaceChar c = false)) :
    ∀ p ∈ trim_pages_from_block block,
      (∃ lr ∈ block.line_refs, lr.page_index = p.page_index) ∧
      p.text ≠ [] ∧
      ∀ l ∈ splitOnNl p.text,
        ∃ lr ∈ block.line_refs, is_footer_like lr.text = false ∧
          lr.page_index = p.page_index ∧ lr.text = l := by
  intro p hp
  unfold trim_pages_from_block at hp
  obtain ⟨pidx, hpidx, hpf⟩ := List.mem_filterMap.mp hp
  simp only at hpf
  set kept := block.line_refs.filter (fun l => !is_footer_like l.text) with hkept
  set ls := (kept.filter (fun l => decide (l.page_index = pidx))).map (fun l => l.text)
    with hls
  by_cases hemp : (stripWS (joinSep '\n' ls)).isEmpty
  · rw [if_pos hemp] at hpf
    cases hpf
  · rw [if_neg hemp] at hpf
    injection hpf with hp'
    subst hp'
    have hlsmem : ∀ l ∈ ls, ∃ lr ∈ block.line_refs,
        is_footer_like lr.text = false ∧ lr.page_index = pidx ∧ lr.text = l := by
      intro l hl
      obtain ⟨lr, hlr, hlrl⟩ := List.mem_map.mp hl
      have hlr2 := List.mem_filter.mp hlr
      have hlr3 := List.mem_filter.mp hlr2.1
      refine ⟨lr, hlr3.1, ?_, ?_, hlrl⟩
      · simpa using hlr3.2
      · simpa using hlr2.2
    have hlsnl : ∀ l ∈ ls, ∀ c ∈ l, c ≠ '\n' := by
      intro l hl
      obtain ⟨lr, hlr, _, _, hlrl⟩ := hlsmem l hl
      rw [← hlrl]
      exact (hshape lr hlr).2.1
    have hlsne : ∀ l ∈ ls, l ≠ [] := by
      intro l hl
      obtain ⟨lr, hlr, _, _, hlrl⟩ := hlsmem l hl
      rw [← hlrl]
      exact (hshape lr hlr).1
    have hlsh : ∀ l ∈ ls, ∀ c, l.head? = some c → isSpaceChar c = false := by
      intro l hl
      obtain ⟨lr, hlr, _, _, hlrl⟩ := hlsmem l hl
      rw [← hlrl]
      exact (hshape lr hlr).2.2.1
    have hlsg : ∀ l ∈ ls, ∀ c, l.getLast? = some c → isSpaceChar c = false := by
      intro l hl
      obtain ⟨lr, hlr, _, _, hlrl⟩ := hlsmem l hl
      rw [← hlrl]
      exact (hshape lr hlr).2.2.2
    have hstrip : stripWS (joinSep '\n' ls) = joinSep '\n' ls :=
      stripWS_eq_self _ (joinSep_head_nonspace _ _ hlsne hlsh)
        (joinSep_getLast_nonspace _ _ hlsne hlsg)
    have hlsnonnil : ls ≠ [] := by
      intro hnil
      rw [hnil] at hemp
      simp [joinSep, stripWS] at hemp
    refine ⟨?_, ?_, ?_⟩
    · have hmem1 : pidx ∈ (kept.map (fun l => l.page_index)).dedup :=
        (mem_sortInts pidx _).mp hpidx
      have hmem2 : pidx ∈ kept.map (fun l => l.page_index) := List.mem_dedup.mp hmem1
      obtain ⟨lr, hlr, hlreq⟩ := List.mem_map.mp hmem2
      exact ⟨lr, (List.mem_filter.mp hlr).1, hlreq⟩
    · simpa [List.isEmpty_iff] using hemp
    · intro l hl
      rw [hstrip, splitOnNl_joinNl ls hlsnonnil hlsnl] at hl
      exact hlsmem l hl

/-- A consistent 40-page proceedings record: the program marker sits in the
filename, the target abstract opens page 0, and its single block (there is
no further abstract-start line) runs to the end of the document, covering
every page (the later pages' author-like text stops the title extension,
so the block title matches the reference exactly). -/
def rec40full : Record :=
  ⟨"p8".data, "annual meeting.pdf".data, [], 40,
    ⟨0, "12. Stiff person syndrome".data⟩ ::
      (List.range 39).map (fun i => ⟨(i : Int) + 1, "a, b, c, d".data⟩)⟩

set_option maxRecDepth 40000 in
unseal Rat.add Rat.mul Rat.inv in
/-- **C8, counterexample.**  The emitted page set need not be a *proper*
subset of the source page set: `rec40full` is auto-trimmed and its trimmed
artifact emits exactly the page-index list of all 40 source pages. -/
theorem trimmed_pages_not_proper_subset_cex :
    (process_record rec40full refProc [] [] [] []).1.trim_status = statusTrimmedAuto ∧
    ((process_record rec40full refProc [] [] [] []).2.map
      (fun t => t.pages.map (fun p => p.page_index))) =
      some (rec40full.pages.map (fun p => p.page_index)) := by
  refine ⟨by decide, by decide⟩

/-- **C8 (amended).**  Every page of a trimmed artifact is contained in the
source document: its page index occurs among the source pages' indices
(not necessarily properly — see the counterexample), its text is
non-empty, and each of its lines is the whitespace-collapsed text of a
non-footer flattened line of the source on that same page. -/
theorem trimmed_pages_containment (record : Record) (refRow : ReferenceRow)
    (srcPath stem outputDir now : List Char) (t : TrimmedRecord)
    (h : (process_record record refRow srcPath stem outputDir now).2 = some t) :
    ∀ p ∈ t.pages,
      p.page_index ∈ record.pages.map Page.page_index ∧
      p.text ≠ [] ∧
      ∀ l ∈ splitOnNl p.text,
        ∃ lr ∈ flatten_lines record, lr.page_index = p.page_index ∧ lr.text = l ∧
          is_footer_like lr.text = false := by
  simp only [process_record] at h
  by_cases hdet : (proceedings_signals record (flatten_lines record)).proceedings_detected = false
  · rw [if_pos hdet] at h
    simp at h
  · rw [if_neg hdet] at h
    split at h
    · simp at h
    · rename_i block heq
      split at h
      · simp only at h
        injection h with ht
        subst ht
        obtain ⟨x, hx, hxb⟩ := best_matching_block_mem _ _ _ _ heq
        have hrefs : ∀ lr ∈ block.line_refs, lr ∈ flatten_lines record := by
          intro lr hlr
          rw [hxb] at hlr
          exact extract_blocks_line_refs _ x hx lr hlr
        have hshape : ∀ lr ∈ block.line_refs,
            lr.text ≠ [] ∧ (∀ c ∈ lr.text, c ≠ '\n') ∧
            (∀ c, lr.text.head? = some c → isSpaceChar c = false) ∧
            (∀ c, lr.text.getLast? = some c → isSpaceChar c = false) := by
          intro lr hlr
          obtain ⟨-, h2, h3, h4, h5⟩ := flatten_lines_shape record lr (hrefs lr hlr)
          exact ⟨h2, h3, h4, h5⟩
        intro p hp
        obtain ⟨⟨lr0, hlr0, hlr0eq⟩, hpne, hsplit⟩ :=
          trim_pages_from_block_spec block hshape p hp
        refine ⟨?_, hpne, ?_⟩
        · have hmem := (flatten_lines_shape record lr0 (hrefs lr0 hlr0)).1
          rw [← hlr0eq]
          exact hmem
        · intro l hl
          obtain ⟨lr, hlr, hfoot, hpeq2, hteq⟩ := hsplit l hl
          exact ⟨lr, hrefs lr hlr, hpeq2, hteq, hfoot⟩
      · simp at h

set_option maxRecDepth 20000 in
unseal Rat.add Rat.mul Rat.inv in
theorem trimmed_pages_containment_witness :
    ∃ t, (process_record recProc refProc [] [] [] []).2 = some t ∧
      ∀ p ∈ t.pages,
        p.page_index ∈ recProc.pages.map Page.page_index ∧
        p.text ≠ [] ∧
        ∀ l ∈ splitOnNl p.text,
          ∃ lr ∈ flatten_lines recProc, lr.page_index = p.page_index ∧ lr.text = l ∧
            is_footer_like lr.text = false :=
  ⟨_, rfl, trimmed_pages_containment recProc refProc [] [] [] [] _ rfl⟩

end Trim
